import Mathlib

/-!
Verification of the Hungarian-matcher core of `celldetr`
(`celldetr/models/deformable_detr/matcher.py`).

The embedding is shallow and executable:

* Float tensors are modelled over `FVal`, rational numbers extended with the
  IEEE special values `+inf`, `-inf` and `nan`; the arithmetic on `FVal`
  follows the IEEE rules for how the special values propagate
  (`inf - inf = nan`, `0 * inf = nan`, division by zero produces a signed
  infinity or `nan`, and `nan` is absorbing).
* The transcendental kernels (`exp`, `log` on finite values) are abstracted
  into a `NumKernel` parameter: every claim about the matcher depends only on
  the fact that the exponential is strictly positive, never on the exact real
  values, so the development quantifies over any positive exponential map and
  witnesses instantiate it with a concrete computable one.
* Tensors are modelled as a shape together with a total indexing function,
  mirroring a dense row-major torch tensor.  The matcher `forward` is
  modelled as `forwardChecked`, which performs exactly the shape/validity
  checks that the torch/scipy pipeline performs (`torch.cat` on an empty or
  ragged list, advanced indexing out of range, `torch.cdist` width mismatch,
  elementwise addition broadcasting, `view`, `split`, indexing `c[i]`, and
  `scipy.optimize.linear_sum_assignment` feasibility), returning
  `Except.error` where the original raises.
* The functions imported from `celldetr.util.moment_ops`
  (`denormalize_moments`, `moments_to_cov`, `kl_divergence_batched`) are not
  part of the sources; they are modelled from the spec and marked as such.
-/

/-- An IEEE-style scalar: a finite rational, a signed infinity, or `nan`. -/
inductive FVal where
  | fin : ℚ → FVal
  | pinf : FVal
  | ninf : FVal
  | nan : FVal
deriving DecidableEq, Repr

namespace FVal

/-- The value is finite (neither an infinity nor `nan`). -/
def isFinite : FVal → Bool
  | fin _ => true
  | _ => false

/-- The value is `nan`. -/
def isNan : FVal → Bool
  | nan => true
  | _ => false

/-- The value is `+inf` or `-inf` (`torch.isinf`). -/
def isInf : FVal → Bool
  | pinf => true
  | ninf => true
  | _ => false

/-- IEEE addition on extended values. -/
def add : FVal → FVal → FVal
  | fin a, fin b => fin (a + b)
  | fin _, pinf => pinf
  | fin _, ninf => ninf
  | pinf, fin _ => pinf
  | ninf, fin _ => ninf
  | pinf, pinf => pinf
  | ninf, ninf => ninf
  | pinf, ninf => nan
  | ninf, pinf => nan
  | nan, _ => nan
  | _, nan => nan

/-- IEEE negation. -/
def neg : FVal → FVal
  | fin a => fin (-a)
  | pinf => ninf
  | ninf => pinf
  | nan => nan

/-- IEEE subtraction. -/
def sub (x y : FVal) : FVal := add x (neg y)

/-- IEEE multiplication (`0 * inf = nan`). -/
def mul : FVal → FVal → FVal
  | fin a, fin b => fin (a * b)
  | fin a, pinf => if 0 < a then pinf else if a < 0 then ninf else nan
  | fin a, ninf => if 0 < a then ninf else if a < 0 then pinf else nan
  | pinf, fin b => if 0 < b then pinf else if b < 0 then ninf else nan
  | ninf, fin b => if 0 < b then ninf else if b < 0 then pinf else nan
  | pinf, pinf => pinf
  | pinf, ninf => ninf
  | ninf, pinf => ninf
  | ninf, ninf => pinf
  | nan, _ => nan
  | _, nan => nan

/-- IEEE division (`x / 0` is a signed infinity or `nan`, `x / inf = 0`). -/
def div : FVal → FVal → FVal
  | fin a, fin b =>
    if b = 0 then (if 0 < a then pinf else if a < 0 then ninf else nan)
    else fin (a / b)
  | fin _, pinf => fin 0
  | fin _, ninf => fin 0
  | pinf, fin b => if b < 0 then ninf else pinf
  | ninf, fin b => if b < 0 then pinf else ninf
  | pinf, pinf => nan
  | pinf, ninf => nan
  | ninf, pinf => nan
  | ninf, ninf => nan
  | nan, _ => nan
  | _, nan => nan

/-- IEEE absolute value. -/
def abs : FVal → FVal
  | fin a => fin |a|
  | pinf => pinf
  | ninf => pinf
  | nan => nan

/-- The finite payload (0 for the special values); used only where all
values are already known finite. -/
def toRat : FVal → ℚ
  | fin a => a
  | _ => 0

instance : Add FVal := ⟨add⟩
instance : Neg FVal := ⟨neg⟩
instance : Sub FVal := ⟨sub⟩
instance : Mul FVal := ⟨mul⟩

theorem add_def (x y : FVal) : x + y = add x y := rfl

theorem sub_def (x y : FVal) : x - y = sub x y := rfl

theorem mul_def (x y : FVal) : x * y = mul x y := rfl

theorem fin_add_fin (a b : ℚ) : fin a + fin b = fin (a + b) := rfl

theorem fin_mul_fin (a b : ℚ) : fin a * fin b = fin (a * b) := rfl

theorem fin_sub_fin (a b : ℚ) : fin a - fin b = fin (a - b) := by
  show sub (fin a) (fin b) = fin (a - b)
  simp [sub, neg, add, sub_eq_add_neg]

theorem isFinite_add {x y : FVal} (hx : x.isFinite = true) (hy : y.isFinite = true) :
    (x + y).isFinite = true := by
  cases x <;> cases y <;> simp_all [isFinite, add_def, add]

theorem isFinite_neg {x : FVal} (hx : x.isFinite = true) : x.neg.isFinite = true := by
  cases x <;> simp_all [isFinite, neg]

theorem isFinite_sub {x y : FVal} (hx : x.isFinite = true) (hy : y.isFinite = true) :
    (x - y).isFinite = true := by
  cases x <;> cases y <;> simp_all [isFinite, sub_def, sub, add, neg]

theorem isFinite_mul {x y : FVal} (hx : x.isFinite = true) (hy : y.isFinite = true) :
    (x * y).isFinite = true := by
  cases x <;> cases y <;> simp_all [isFinite, mul_def, mul]

theorem isFinite_abs {x : FVal} (hx : x.isFinite = true) : x.abs.isFinite = true := by
  cases x <;> simp_all [isFinite, abs]

theorem not_nan_of_isFinite {x : FVal} (hx : x.isFinite = true) : x.isNan = false := by
  cases x <;> simp_all [isFinite, isNan]

theorem ne_ninf_of_isFinite {x : FVal} (hx : x.isFinite = true) : x ≠ ninf := by
  cases x <;> simp_all [isFinite]

end FVal

/-- The numeric kernel abstracted from the float implementation: an
exponential map and a logarithm on finite scalars.  Every claim proved below
depends only on strict positivity of the exponential (which makes the
sigmoid land strictly between 0 and 1), so the development is parametric in
the kernel and a witness can use any computable positive instance. -/
structure NumKernel where
  exp : ℚ → ℚ
  log : ℚ → ℚ
  exp_pos : ∀ x : ℚ, 0 < exp x

namespace FVal

/-- IEEE logarithm lifted to extended values: `log` of a positive finite
value is finite, `log 0 = -inf`, `log` of a negative value is `nan`. -/
def flog (K : NumKernel) : FVal → FVal
  | fin a => if 0 < a then fin (K.log a) else if a = 0 then ninf else nan
  | pinf => pinf
  | ninf => nan
  | nan => nan

/-- Elementwise logistic sigmoid (`torch.sigmoid`): `1 / (1 + exp (-x))` on
finite values, `1` at `+inf`, `0` at `-inf`, `nan` at `nan`. -/
def sigmoid (K : NumKernel) : FVal → FVal
  | fin a => fin (1 / (1 + K.exp (-a)))
  | pinf => fin 1
  | ninf => fin 0
  | nan => nan

/-- Squaring, modelling the float power `x ** 2.0` of the focal cost. -/
def pow2 (x : FVal) : FVal := x * x

theorem sigmoid_fin (K : NumKernel) (a : ℚ) :
    sigmoid K (fin a) = fin (1 / (1 + K.exp (-a))) := rfl

theorem sigmoid_fin_pos (K : NumKernel) (a : ℚ) : 0 < (1 : ℚ) / (1 + K.exp (-a)) := by
  have h := K.exp_pos (-a)
  positivity

theorem sigmoid_fin_lt_one (K : NumKernel) (a : ℚ) : (1 : ℚ) / (1 + K.exp (-a)) < 1 := by
  have h := K.exp_pos (-a)
  rw [div_lt_one (by linarith)]
  linarith

theorem isFinite_flog_pos (K : NumKernel) {a : ℚ} (h : 0 < a) :
    (flog K (fin a)).isFinite = true := by
  simp [flog, h, isFinite]

end FVal

/-! ## Tensors

A dense 2-D (resp. 3-D) float tensor: a shape together with a total
row-major indexing function.  Reads outside the shape are never used by any
statement below. -/

/-- A 2-D tensor of extended floats. -/
structure Tensor2 where
  d0 : ℕ
  d1 : ℕ
  data : ℕ → ℕ → FVal

/-- A 3-D tensor of extended floats. -/
structure Tensor3 where
  d0 : ℕ
  d1 : ℕ
  d2 : ℕ
  data : ℕ → ℕ → ℕ → FVal

/-- Model of `Tensor.flatten(0, 1)`: merge the first two axes, row-major. -/
def Tensor3.flatten01 (t : Tensor3) : Tensor2 :=
  ⟨t.d0 * t.d1, t.d2, fun i j => t.data (i / t.d1) (i % t.d1) j⟩

/-- Elementwise map over a tensor. -/
def Tensor2.emap (f : FVal → FVal) (t : Tensor2) : Tensor2 :=
  ⟨t.d0, t.d1, fun i j => f (t.data i j)⟩

/-- Multiplication of a tensor by a python float scalar. -/
def smul (c : ℚ) (t : Tensor2) : Tensor2 :=
  ⟨t.d0, t.d1, fun i j => FVal.fin c * t.data i j⟩

/-- Whether two sizes are broadcast-compatible in one dimension
(equal, or one of them is 1), as for `torch.add`. -/
def bcOK (a b : ℕ) : Bool := a = b || a = 1 || b = 1

/-- The broadcast result size of one dimension. -/
def bcD (a b : ℕ) : ℕ := if a = b then a else if a = 1 then b else a

/-- Elementwise broadcasting addition of two 2-D tensors (the shape check
`bcOK` is performed by the caller, as torch raises there). -/
def bAdd (a b : Tensor2) : Tensor2 :=
  ⟨bcD a.d0 b.d0, bcD a.d1 b.d1, fun i j =>
    a.data (if a.d0 = 1 then 0 else i) (if a.d1 = 1 then 0 else j) +
    b.data (if b.d0 = 1 then 0 else i) (if b.d1 = 1 then 0 else j)⟩

/-! ## Inputs of the matcher -/

/-- The `outputs` dict: classification logits `(bs, num_queries, num_classes)`
and predicted moments `(bs, num_queries, 5)`. -/
structure Outputs where
  pred_logits : Tensor3
  pred_moments : Tensor3

/-- One element of the `targets` list: integer class labels, the number of
rows of the `"boxes"` tensor (only its length is ever read, at line 103),
and the `(n_i, 5)` moment tensor. -/
structure Target where
  labels : List ℕ
  nboxes : ℕ
  moments : Tensor2

/-- Line 72, `torch.cat([v["labels"] for v in targets])`. -/
def tgtIds (ts : List Target) : List ℕ := (ts.map Target.labels).flatten

/-- The widths-match check of `torch.cat` on the moment tensors. -/
def catWidthsOK (ts : List Target) : Bool :=
  match ts with
  | [] => true
  | t :: rest => rest.all (fun u => u.moments.d1 = t.moments.d1)

/-- Width of the concatenated target moments (width of the first block). -/
def headWidth (ts : List Target) : ℕ :=
  match ts with
  | [] => 0
  | t :: _ => t.moments.d1

/-- Total number of target moment rows across the batch. -/
def totalRows (ts : List Target) : ℕ := (ts.map (fun t => t.moments.d0)).sum

/-- Row lookup in the concatenation of the per-target moment tensors. -/
def rowsLookup (ts : List Target) (r c : ℕ) : FVal :=
  match ts with
  | [] => FVal.nan
  | t :: rest => if r < t.moments.d0 then t.moments.data r c else rowsLookup rest (r - t.moments.d0) c

/-- Line 73, `torch.cat([v["moments"] for v in targets])` (payload; the emptiness and
width checks are separate). -/
def catMomentsP (ts : List Target) : Tensor2 := ⟨totalRows ts, headWidth ts, rowsLookup ts⟩

/-! ## Cost terms -/

/-- The constant `alpha = 0.25` of the focal classification cost. -/
def alphaQ : ℚ := 1 / 4

/-- The `1e-8` guard of the focal-cost logarithms. -/
def epsQ : ℚ := 1 / 100000000

/-- Line 68, `outputs["pred_logits"].flatten(0, 1).sigmoid()`. -/
def outProb (K : NumKernel) (o : Outputs) : Tensor2 :=
  (o.pred_logits.flatten01).emap (FVal.sigmoid K)

/-- Line 69, `outputs["pred_moments"].flatten(0, 1)`. -/
def outMoments (o : Outputs) : Tensor2 := o.pred_moments.flatten01

/-- Line 78, `neg_cost_class = (1 - alpha) * (out_prob ** gamma) * (-(1 - out_prob + 1e-8).log())`. -/
def negCostClassT (K : NumKernel) (P : Tensor2) : Tensor2 :=
  P.emap (fun p => FVal.fin (1 - alphaQ) * p.pow2 * (-(FVal.flog K (FVal.fin 1 - p + FVal.fin epsQ))))

/-- Line 79, `pos_cost_class = alpha * ((1 - out_prob) ** gamma) * (-(out_prob + 1e-8).log())`. -/
def posCostClassT (K : NumKernel) (P : Tensor2) : Tensor2 :=
  P.emap (fun p => FVal.fin alphaQ * (FVal.fin 1 - p).pow2 * (-(FVal.flog K (p + FVal.fin epsQ))))

/-- Line 80, `cost_class = pos_cost_class[:, tgt_ids] - neg_cost_class[:, tgt_ids]`
(the range check of the advanced indexing is performed by the caller). -/
def costClassT (K : NumKernel) (o : Outputs) (ts : List Target) : Tensor2 :=
  ⟨(outProb K o).d0, (tgtIds ts).length, fun i j =>
    (posCostClassT K (outProb K o)).data i ((tgtIds ts).getD j 0) -
    (negCostClassT K (outProb K o)).data i ((tgtIds ts).getD j 0)⟩

/-- Sum of a list of extended floats. -/
def sumFV (l : List FVal) : FVal := l.foldl FVal.add (FVal.fin 0)

/-- One entry of `torch.cdist(a, b, p=1)`: the L1 distance between row `i`
of `a` and row `j` of `b`. -/
def l1Entry (a b : Tensor2) (i j : ℕ) : FVal :=
  sumFV ((List.range a.d1).map (fun c => (a.data i c - b.data j c).abs))

/-- Line 83, `cost_moments = torch.cdist(out_moments, tgt_moments, p=1)` (payload;
the equal-width check is separate). -/
def costMomentsT (o : Outputs) (ts : List Target) : Tensor2 :=
  ⟨(outMoments o).d0, (catMomentsP ts).d0, l1Entry (outMoments o) (catMomentsP ts)⟩

/-! ## Moment/geometry utilities (`celldetr.util.moment_ops`)

These functions are not part of the provided sources; they are modelled from
the spec (section 4.1). -/

/-- Modelled from the spec: `denormalize_moments` applies a fixed
deterministic affine/scale transform per row, turning normalized moment
coordinates into absolute ones.  The spec leaves the concrete transform to
an external contract shared with the surrounding system; the embedding uses
the canonical instance (unit scale, zero shift), on which no claim depends. -/
def denormalize_moments (t : Tensor2) : Tensor2 := t

/-- The slice `[:, :2]` extracting the mean `(cx, cy)`. -/
def muSlice (t : Tensor2) : Tensor2 := ⟨t.d0, min 2 t.d1, t.data⟩

/-- The slice `[:, 2:]` extracting the trailing moment components. -/
def tailSlice (t : Tensor2) : Tensor2 := ⟨t.d0, t.d1 - 2, fun i j => t.data i (j + 2)⟩

/-- A batch of symmetric 2x2 covariance matrices. -/
structure CovB where
  n : ℕ
  xx : ℕ → FVal
  xy : ℕ → FVal
  yx : ℕ → FVal
  yy : ℕ → FVal

/-- Modelled from the spec: `moments_to_cov` maps the trailing three scalars
`(var_x, var_y, cov_xy)` of each denormalized moment row to the symmetric
matrix `[[var_x, cov_xy], [cov_xy, var_y]]`; it reads three columns, so it
fails on an input narrower than three columns (check `momentsToCovOK`). -/
def moments_to_cov (t : Tensor2) : CovB :=
  ⟨t.d0, fun i => t.data i 0, fun i => t.data i 2, fun i => t.data i 2, fun i => t.data i 1⟩

/-- The width check of `moments_to_cov`. -/
def momentsToCovOK (t : Tensor2) : Bool := 3 ≤ t.d1

/-- One Gaussian: mean and 2x2 covariance entries. -/
structure Gauss2 where
  mx : FVal
  my : FVal
  sxx : FVal
  sxy : FVal
  syx : FVal
  syy : FVal

/-- Gaussian `i` of a batch. -/
def gaussAt (mu : Tensor2) (S : CovB) (i : ℕ) : Gauss2 :=
  ⟨mu.data i 0, mu.data i 1, S.xx i, S.xy i, S.yx i, S.yy i⟩

/-- Modelled from the spec: the closed-form KL divergence
`KL(N(mu_a, Sigma_a) || N(mu_b, Sigma_b))
  = 0.5 * (trace(Sigma_b^-1 Sigma_a) + (mu_b - mu_a)^T Sigma_b^-1 (mu_b - mu_a)
           - 2 + ln(det Sigma_b / det Sigma_a))`
for 2-D Gaussians, evaluated in IEEE arithmetic: a singular `Sigma_b`
divides by zero and a non-positive determinant ratio makes the logarithm
`-inf`/`nan`, exactly the instability the spec requires the caller to
sanitize. -/
def klClosed (K : NumKernel) (a b : Gauss2) : FVal :=
  let detA := a.sxx * a.syy - a.sxy * a.syx
  let detB := b.sxx * b.syy - b.sxy * b.syx
  let tr := (b.syy * a.sxx + b.sxx * a.syy - b.sxy * a.syx - b.syx * a.sxy).div detB
  let dx := b.mx - a.mx
  let dy := b.my - a.my
  let quad := (b.syy * dx * dx - b.sxy * dx * dy - b.syx * dy * dx + b.sxx * dy * dy).div detB
  FVal.fin (1 / 2) * (tr + quad - FVal.fin 2 + FVal.flog K (detB.div detA))

/-- Modelled from the spec: `kl_divergence_batched` evaluates the closed-form
KL divergence pairwise across the two batches, producing an `N_a x N_b`
matrix. -/
def kl_divergence_batched (K : NumKernel) (muA : Tensor2) (SA : CovB) (muB : Tensor2) (SB : CovB) : Tensor2 :=
  ⟨muA.d0, muB.d0, fun i j => klClosed K (gaussAt muA SA i) (gaussAt muB SB j)⟩

/-- Line 97: `cost_kl[cost_kl.isnan() | cost_kl.isinf()] = 1000` — replace a
`NaN` or `Inf` entry by the fixed penalty value 1000, keep the rest. -/
def sanitizeFV (x : FVal) : FVal :=
  if x.isNan || x.isInf then FVal.fin 1000 else x

/-- The sanitized KL cost matrix (lines 85-97). -/
def costKlT (K : NumKernel) (o : Outputs) (ts : List Target) : Tensor2 :=
  (kl_divergence_batched K
    (muSlice (denormalize_moments (outMoments o)))
    (moments_to_cov (tailSlice (denormalize_moments (outMoments o))))
    (muSlice (denormalize_moments (catMomentsP ts)))
    (moments_to_cov (tailSlice (denormalize_moments (catMomentsP ts))))).emap sanitizeFV

/-! ## The matcher module -/

/-- The `HungarianMatcher` module state: the three cost weights. -/
structure HungarianMatcher where
  cost_class : ℚ
  cost_moments : ℚ
  cost_kl : ℚ
deriving DecidableEq, Repr

/-- The constructor (lines 27-42): stores the weights and asserts that not
all of them are zero; an `AssertionError` is modelled as `Except.error`. -/
def HungarianMatcher.init (cost_class cost_moments cost_kl : ℚ) : Except String HungarianMatcher :=
  if cost_class ≠ 0 ∨ cost_moments ≠ 0 ∨ cost_kl ≠ 0 then
    .ok ⟨cost_class, cost_moments, cost_kl⟩
  else .error "all costs cant be 0"

/-- Line 100: `C = cost_moments * cost_moments_mat + cost_class * cost_class_mat
+ cost_kl * cost_kl_mat` (left-associated, as python evaluates it). -/
def combinedC (K : NumKernel) (M : HungarianMatcher) (o : Outputs) (ts : List Target) : Tensor2 :=
  bAdd (bAdd (smul M.cost_moments (costMomentsT o ts)) (smul M.cost_class (costClassT K o ts)))
    (smul M.cost_kl (costKlT K o ts))

/-- Line 103, `sizes = [len(v["boxes"]) for v in targets]`. -/
def sizesOf (ts : List Target) : List ℕ := ts.map Target.nboxes

/-- Start column of the `i`-th block of `C.split(sizes, -1)`. -/
def offAt (sizes : List ℕ) (i : ℕ) : ℕ := (sizes.take i).sum

/-- The width inferred for the trailing axis by `C.view(bs, num_queries, -1)`. -/
def viewWidth (K : NumKernel) (M : HungarianMatcher) (o : Outputs) (ts : List Target) : ℕ :=
  (combinedC K M o ts).d0 * (combinedC K M o ts).d1 / (o.pred_logits.d0 * o.pred_logits.d1)

/-- Reading element `(x, y, z)` of `C.view(bs, num_queries, -1)`: row-major
flat index mapped back into the 2-D layout of `C`. -/
def view3data (C : Tensor2) (nq k x y z : ℕ) : FVal :=
  C.data ((x * (nq * k) + y * k + z) / C.d1) ((x * (nq * k) + y * k + z) % C.d1)

/-- Entry `(q, t)` of the cost block handed to the per-example solver for
batch element `i`: element `(i, q, offset_i + t)` of the viewed tensor,
where `offset_i` is the cumulative size of the preceding split blocks. -/
def blockEntry (K : NumKernel) (M : HungarianMatcher) (o : Outputs) (ts : List Target) (i q t : ℕ) : FVal :=
  view3data (combinedC K M o ts) o.pred_logits.d1 (viewWidth K M o ts) i q (offAt (sizesOf ts) i + t)

/-! ## The assignment solver (`scipy.optimize.linear_sum_assignment`)

The solver is modelled extensionally: enumerate every maximal one-to-one
assignment between rows and columns, keep the feasible ones (no non-finite
chosen entry), and return a minimum-cost one as two index sequences sorted
by row index, which is the order scipy emits.  scipy raises on a matrix
containing `nan` or `-inf`, and raises "cost matrix is infeasible" when no
complete assignment avoids `+inf`. -/

/-- All ways to insert an element into a list (structural recursion, so
that concrete witnesses evaluate inside the kernel). -/
def insertsOf (x : α) : List α → List (List α)
  | [] => [[x]]
  | y :: ys => (x :: y :: ys) :: (insertsOf x ys).map (fun l => y :: l)

/-- All permutations of a list (structural recursion). -/
def permsOf : List α → List (List α)
  | [] => [[]]
  | x :: xs => ((permsOf xs).map (insertsOf x)).flatten

/-- A minimum of a list under a cost function (first minimum on ties). -/
def minBy (f : α → ℚ) : List α → Option α
  | [] => none
  | x :: xs =>
    match minBy f xs with
    | none => some x
    | some y => if f y < f x then some y else some x

/-- All maximal assignments of an `m x n` cost matrix, each as a list of
`(row, column)` pairs sorted by row index. -/
def lsaCandidates (m n : ℕ) : List (List (ℕ × ℕ)) :=
  if m ≤ n then
    (permsOf (List.range n)).map (fun p => (List.range m).zip (p.take m))
  else
    (permsOf (List.range m)).map (fun p =>
      List.insertionSort (fun a b => a.1 ≤ b.1) ((p.take n).zip (List.range n)))

/-- Total cost of an assignment (all chosen entries of a feasible
assignment are finite). -/
def candCost (d : ℕ → ℕ → FVal) (cand : List (ℕ × ℕ)) : ℚ :=
  (cand.map (fun pr => (d pr.1 pr.2).toRat)).sum

/-- An assignment is feasible when every chosen entry is finite. -/
def candFeasible (d : ℕ → ℕ → FVal) (cand : List (ℕ × ℕ)) : Bool :=
  cand.all (fun pr => (d pr.1 pr.2).isFinite)

/-- scipy's validity scan: `nan` and `-inf` entries are invalid. -/
def hasInvalid (m n : ℕ) (d : ℕ → ℕ → FVal) : Bool :=
  (List.range m).any (fun q => (List.range n).any (fun t => (d q t).isNan || d q t == FVal.ninf))

/-- Model of `scipy.optimize.linear_sum_assignment` on an `m x n` matrix: the row
indices and column indices of an optimal assignment, sorted by row. -/
def linear_sum_assignment (m n : ℕ) (d : ℕ → ℕ → FVal) : Except String (List ℕ × List ℕ) :=
  if hasInvalid m n d then .error "matrix contains invalid numeric entries"
  else
    match minBy (candCost d) ((lsaCandidates m n).filter (candFeasible d)) with
    | some cand => .ok (cand.map Prod.fst, cand.map Prod.snd)
    | none => .error "cost matrix is infeasible"

/-- The solver call for batch element `i` (line 104):
`linear_sum_assignment(c[i])` on the `(num_queries, sizes[i])` block. -/
def solverCall (K : NumKernel) (M : HungarianMatcher) (o : Outputs) (ts : List Target) (i : ℕ) :
    Except String (List ℕ × List ℕ) :=
  linear_sum_assignment o.pred_logits.d1 ((sizesOf ts).getD i 0) (blockEntry K M o ts i)

/-- Sequential effectful map, modelling a python list comprehension that
aborts at the first raised exception. -/
def listTraverse (f : α → Except String β) : List α → Except String (List β)
  | [] => .ok []
  | x :: xs =>
    match f x with
    | .error e => .error e
    | .ok y =>
      match listTraverse f xs with
      | .error e => .error e
      | .ok ys => .ok (y :: ys)

/-- The matcher `forward` (lines 44-105) with every shape/validity check the
torch/scipy pipeline performs, in source order: `torch.cat` on the target
lists (non-empty, equal widths), the advanced indexing `[:, tgt_ids]`
(labels in range), `torch.cdist` (equal widths), `moments_to_cov` (at least
three trailing columns on both sides), the two elementwise additions of
line 100 (broadcast compatibility), `view(bs, num_queries, -1)` (non-zero
leading axes, divisibility), `split(sizes, -1)` (sizes summing to the
target axis), and per example the indexing `c[i]` (`i < bs`) and the solver
itself. -/
def forwardChecked (K : NumKernel) (M : HungarianMatcher) (o : Outputs) (ts : List Target) :
    Except String (List (List ℕ × List ℕ)) :=
  let bs := o.pred_logits.d0
  let nq := o.pred_logits.d1
  let nc := o.pred_logits.d2
  let om := outMoments o
  let tm := catMomentsP ts
  let cm := costMomentsT o ts
  let cc := costClassT K o ts
  let ck := costKlT K o ts
  let C := combinedC K M o ts
  let sizes := sizesOf ts
  if ts.isEmpty then .error "torch.cat: expected a non-empty list of Tensors"
  else if catWidthsOK ts = false then .error "torch.cat: sizes of tensors must match"
  else if (tgtIds ts).all (fun c => c < nc) = false then .error "index out of range in advanced indexing"
  else if om.d1 ≠ tm.d1 then .error "cdist: X1 and X2 must have the same number of columns"
  else if momentsToCovOK (tailSlice (denormalize_moments om)) = false then .error "moments_to_cov: input too narrow"
  else if momentsToCovOK (tailSlice (denormalize_moments tm)) = false then .error "moments_to_cov: input too narrow"
  else if (bcOK cm.d0 cc.d0 && bcOK cm.d1 cc.d1) = false then .error "the size of tensor a must match the size of tensor b"
  else if (bcOK (bAdd (smul M.cost_moments cm) (smul M.cost_class cc)).d0 ck.d0 &&
           bcOK (bAdd (smul M.cost_moments cm) (smul M.cost_class cc)).d1 ck.d1) = false then
    .error "the size of tensor a must match the size of tensor b"
  else if bs * nq = 0 then .error "view: cannot infer the trailing dimension"
  else if (C.d0 * C.d1) % (bs * nq) ≠ 0 then .error "view: shape is invalid for input size"
  else if sizes.sum ≠ viewWidth K M o ts then .error "split: sizes do not sum to the dimension size"
  else
    listTraverse
      (fun i => if i < bs then solverCall K M o ts i else .error "index out of range for dimension 0")
      (List.range ts.length)

/-! ## Properties of the assignment solver -/

theorem minBy_mem {α : Type} {f : α → ℚ} {l : List α} {x : α} (h : minBy f l = some x) : x ∈ l := by
  induction l with
  | nil => simp [minBy] at h
  | cons a as ih =>
    cases hm : minBy f as with
    | none =>
      simp only [minBy, hm] at h
      cases h
      exact List.mem_cons_self _ _
    | some y =>
      simp only [minBy, hm] at h
      by_cases hc : f y < f a
      · rw [if_pos hc] at h
        cases h
        exact List.mem_cons_of_mem a (ih hm)
      · rw [if_neg hc] at h
        cases h
        exact List.mem_cons_self _ _

theorem minBy_isSome {α : Type} (f : α → ℚ) {l : List α} (h : l ≠ []) : ∃ x, minBy f l = some x := by
  cases l with
  | nil => simp_all
  | cons a as =>
    simp only [minBy]
    cases hm : minBy f as with
    | none => exact ⟨a, rfl⟩
    | some y => by_cases hc : f y < f a <;> simp [hc]

theorem cons_mem_insertsOf (x : α) (p : List α) : x :: p ∈ insertsOf x p := by
  cases p with
  | nil => exact List.mem_cons_self _ _
  | cons y ys => exact List.mem_cons_self _ _

theorem mem_insertsOf_perm {x : α} {p l : List α} (h : l ∈ insertsOf x p) :
    List.Perm l (x :: p) := by
  induction p generalizing l with
  | nil =>
    simp only [insertsOf, List.mem_cons, List.not_mem_nil, or_false] at h
    rw [h]
  | cons y ys ih =>
    simp only [insertsOf, List.mem_cons, List.mem_map] at h
    rcases h with h | ⟨l2, hl2, hly⟩
    · rw [h]
    · rw [← hly]
      exact ((ih hl2).cons y).trans (List.Perm.swap x y ys)

theorem mem_permsOf_perm {l0 l : List α} (h : l ∈ permsOf l0) : List.Perm l l0 := by
  induction l0 generalizing l with
  | nil =>
    simp only [permsOf, List.mem_cons, List.not_mem_nil, or_false] at h
    rw [h]
  | cons x xs ih =>
    simp only [permsOf, List.mem_flatten, List.mem_map] at h
    obtain ⟨s, ⟨p, hp, hs⟩, hls⟩ := h
    rw [← hs] at hls
    exact (mem_insertsOf_perm hls).trans ((ih hp).cons x)

theorem self_mem_permsOf (l : List α) : l ∈ permsOf l := by
  induction l with
  | nil => exact List.mem_cons_self _ _
  | cons x xs ih =>
    simp only [permsOf, List.mem_flatten, List.mem_map]
    exact ⟨insertsOf x xs, ⟨xs, ih, rfl⟩, cons_mem_insertsOf x xs⟩

/-- Structural invariants of every enumerated assignment: it has size
`min m n`, its row indices are strictly increasing and below `m`, and its
column indices are pairwise distinct and below `n`. -/
theorem lsaCandidates_spec {m n : ℕ} {cand : List (ℕ × ℕ)} (h : cand ∈ lsaCandidates m n) :
    cand.length = min m n ∧
    List.Pairwise (fun a b : ℕ × ℕ => a.1 < b.1) cand ∧
    (∀ p ∈ cand, p.1 < m) ∧
    (cand.map Prod.snd).Nodup ∧
    (∀ p ∈ cand, p.2 < n) := by
  unfold lsaCandidates at h
  by_cases hmn : m ≤ n
  · rw [if_pos hmn, List.mem_map] at h
    obtain ⟨p, hp, hcand⟩ := h
    have hperm : List.Perm p (List.range n) := mem_permsOf_perm hp
    have hplen : p.length = n := hperm.length_eq.trans (List.length_range n)
    have hpnodup : p.Nodup := hperm.nodup_iff.2 (List.nodup_range n)
    have htlen : (p.take m).length = m := by
      rw [List.length_take, hplen]; omega
    have hfst : cand.map Prod.fst = List.range m := by
      rw [← hcand]
      exact List.map_fst_zip _ _ (by rw [List.length_range, htlen])
    have hsnd : cand.map Prod.snd = p.take m := by
      rw [← hcand]
      exact List.map_snd_zip _ _ (by rw [List.length_range, htlen])
    refine ⟨?_, ?_, ?_, ?_, ?_⟩
    · rw [← hcand, List.length_zip, List.length_range, htlen]; omega
    · have hpw := List.pairwise_lt_range m
      rw [← hfst, List.pairwise_map] at hpw
      exact hpw
    · intro q hq
      have hq1 : q.1 ∈ cand.map Prod.fst := List.mem_map_of_mem Prod.fst hq
      rw [hfst, List.mem_range] at hq1
      exact hq1
    · rw [hsnd]
      exact hpnodup.sublist (List.take_sublist m p)
    · intro q hq
      have hq2 : q.2 ∈ cand.map Prod.snd := List.mem_map_of_mem Prod.snd hq
      rw [hsnd] at hq2
      exact List.mem_range.1 (hperm.mem_iff.1 (List.mem_of_mem_take hq2))
  · rw [if_neg hmn, List.mem_map] at h
    obtain ⟨p, hp, hcand⟩ := h
    have hperm : List.Perm p (List.range m) := mem_permsOf_perm hp
    have hplen : p.length = m := hperm.length_eq.trans (List.length_range m)
    have hpnodup : p.Nodup := hperm.nodup_iff.2 (List.nodup_range m)
    have htlen : (p.take n).length = n := by
      rw [List.length_take, hplen]; omega
    have hzf : ((p.take n).zip (List.range n)).map Prod.fst = p.take n :=
      List.map_fst_zip _ _ (by rw [List.length_range, htlen])
    have hzs : ((p.take n).zip (List.range n)).map Prod.snd = List.range n :=
      List.map_snd_zip _ _ (by rw [List.length_range, htlen])
    have hsp : List.Perm cand ((p.take n).zip (List.range n)) := by
      rw [← hcand]; exact List.perm_insertionSort _ _
    haveI : IsTotal (ℕ × ℕ) (fun a b => a.1 ≤ b.1) := ⟨fun a b => Nat.le_total a.1 b.1⟩
    haveI : IsTrans (ℕ × ℕ) (fun a b => a.1 ≤ b.1) := ⟨fun _ _ _ h1 h2 => le_trans h1 h2⟩
    have hsorted : List.Sorted (fun a b : ℕ × ℕ => a.1 ≤ b.1) cand := by
      rw [← hcand]; exact List.sorted_insertionSort _ _
    have hfstnd : (cand.map Prod.fst).Nodup := by
      refine ((hsp.map Prod.fst).nodup_iff).2 ?_
      rw [hzf]
      exact hpnodup.sublist (List.take_sublist n p)
    refine ⟨?_, ?_, ?_, ?_, ?_⟩
    · rw [hsp.length_eq, List.length_zip, List.length_range, htlen]; omega
    · have hne : List.Pairwise (fun a b : ℕ × ℕ => a.1 ≠ b.1) cand :=
        List.pairwise_map.1 hfstnd
      exact (hsorted.and hne).imp (fun hab => lt_of_le_of_ne hab.1 hab.2)
    · intro q hq
      have hq1 : q.1 ∈ cand.map Prod.fst := List.mem_map_of_mem Prod.fst hq
      rw [(hsp.map Prod.fst).mem_iff, hzf] at hq1
      exact List.mem_range.1 (hperm.mem_iff.1 (List.mem_of_mem_take hq1))
    · refine ((hsp.map Prod.snd).nodup_iff).2 ?_
      rw [hzs]
      exact List.nodup_range n
    · intro q hq
      have hq2 : q.2 ∈ cand.map Prod.snd := List.mem_map_of_mem Prod.snd hq
      rw [(hsp.map Prod.snd).mem_iff, hzs] at hq2
      exact List.mem_range.1 hq2

/-- The candidate enumeration is never empty. -/
theorem lsaCandidates_ne_nil (m n : ℕ) : lsaCandidates m n ≠ [] := by
  unfold lsaCandidates
  by_cases hmn : m ≤ n
  · rw [if_pos hmn]
    intro h
    rw [List.map_eq_nil_iff] at h
    exact (List.ne_nil_of_mem (self_mem_permsOf (List.range n))) h
  · rw [if_neg hmn]
    intro h
    rw [List.map_eq_nil_iff] at h
    exact (List.ne_nil_of_mem (self_mem_permsOf (List.range m))) h

/-- Inversion of a successful solver call: the returned index sequences are
the rows and columns of one of the enumerated assignments. -/
theorem lsa_ok_spec {m n : ℕ} {d : ℕ → ℕ → FVal} {A B : List ℕ}
    (h : linear_sum_assignment m n d = .ok (A, B)) :
    ∃ cand ∈ lsaCandidates m n, A = cand.map Prod.fst ∧ B = cand.map Prod.snd := by
  unfold linear_sum_assignment at h
  split at h
  · exact absurd h (by simp)
  · cases hm : minBy (candCost d) ((lsaCandidates m n).filter (candFeasible d)) with
    | none =>
      simp only [hm] at h
      exact absurd h (by simp)
    | some cand =>
      simp only [hm, Except.ok.injEq, Prod.mk.injEq] at h
      exact ⟨cand, List.mem_of_mem_filter (minBy_mem hm), h.1.symm, h.2.symm⟩

/-- On a matrix whose in-range entries are all finite, the solver succeeds. -/
theorem lsa_finite_ok {m n : ℕ} {d : ℕ → ℕ → FVal}
    (hfin : ∀ q < m, ∀ t < n, (d q t).isFinite = true) :
    ∃ A B, linear_sum_assignment m n d = .ok (A, B) := by
  have hinv : hasInvalid m n d = false := by
    rw [Bool.eq_false_iff]
    intro hco
    simp only [hasInvalid, List.any_eq_true, List.mem_range] at hco
    obtain ⟨q, hq, t, ht, hqt⟩ := hco
    have hf := hfin q hq t ht
    rcases Bool.or_eq_true_iff.1 hqt with hnan | hninf
    · rw [FVal.not_nan_of_isFinite hf] at hnan; exact Bool.false_ne_true hnan
    · exact FVal.ne_ninf_of_isFinite hf (by rwa [beq_iff_eq] at hninf)
  have hfeas : ∀ cand ∈ lsaCandidates m n, candFeasible d cand = true := by
    intro cand hcand
    obtain ⟨-, -, hr, -, hc⟩ := lsaCandidates_spec hcand
    simp only [candFeasible, List.all_eq_true]
    intro pr hpr
    exact hfin pr.1 (hr pr hpr) pr.2 (hc pr hpr)
  have hfil : (lsaCandidates m n).filter (candFeasible d) = lsaCandidates m n :=
    List.filter_eq_self.2 hfeas
  have hne : (lsaCandidates m n).filter (candFeasible d) ≠ [] := by
    rw [hfil]; exact lsaCandidates_ne_nil m n
  obtain ⟨cand, hm⟩ := minBy_isSome (candCost d) hne
  refine ⟨cand.map Prod.fst, cand.map Prod.snd, ?_⟩
  unfold linear_sum_assignment
  rw [if_neg (by rw [hinv]; exact Bool.false_ne_true)]
  simp only [hm]

/-! ## Properties of the sequential traversal -/

theorem listTraverse_ok_length {α β : Type} {f : α → Except String β} {l : List α} {r : List β}
    (h : listTraverse f l = .ok r) : r.length = l.length := by
  induction l generalizing r with
  | nil => simp only [listTraverse] at h; cases h; rfl
  | cons x xs ih =>
    simp only [listTraverse] at h
    cases hx : f x with
    | error e => rw [hx] at h; exact absurd h (by simp)
    | ok y =>
      rw [hx] at h
      cases hr : listTraverse f xs with
      | error e => rw [hr] at h; exact absurd h (by simp)
      | ok ys =>
        rw [hr] at h
        cases h
        simp [ih hr]

theorem listTraverse_ok_getD {α β : Type} {f : α → Except String β} {l : List α} {r : List β}
    (h : listTraverse f l = .ok r) (i : ℕ) (hi : i < l.length) (da : α) (db : β) :
    f (l.getD i da) = .ok (r.getD i db) := by
  induction l generalizing r i with
  | nil => simp at hi
  | cons x xs ih =>
    simp only [listTraverse] at h
    cases hx : f x with
    | error e => rw [hx] at h; exact absurd h (by simp)
    | ok y =>
      rw [hx] at h
      cases hr : listTraverse f xs with
      | error e => rw [hr] at h; exact absurd h (by simp)
      | ok ys =>
        rw [hr] at h
        cases h
        cases i with
        | zero => simpa using hx
        | succ j =>
          simp only [List.getD_cons_succ]
          exact ih hr j (by simpa using hi)

theorem listTraverse_ok_of_all {α β : Type} {f : α → Except String β} {l : List α}
    (h : ∀ x ∈ l, ∃ y, f x = .ok y) : ∃ r, listTraverse f l = .ok r := by
  induction l with
  | nil => exact ⟨[], rfl⟩
  | cons x xs ih =>
    obtain ⟨y, hy⟩ := h x (List.mem_cons_self x xs)
    obtain ⟨ys, hys⟩ := ih (fun z hz => h z (List.mem_cons_of_mem x hz))
    exact ⟨y :: ys, by simp only [listTraverse, hy, hys]⟩

theorem listTraverse_congr {α β : Type} {f g : α → Except String β} {l : List α}
    (h : ∀ x ∈ l, f x = g x) : listTraverse f l = listTraverse g l := by
  induction l with
  | nil => rfl
  | cons x xs ih =>
    simp only [listTraverse, h x (List.mem_cons_self x xs),
      ih (fun z hz => h z (List.mem_cons_of_mem x hz))]

theorem listTraverse_no_ok_of_bad {α β : Type} {f : α → Except String β} {l : List α} {x : α}
    (hx : x ∈ l) (hbad : ∀ y, f x ≠ .ok y) {r : List β} (h : listTraverse f l = .ok r) : False := by
  induction l generalizing r with
  | nil => simp at hx
  | cons a as ih =>
    simp only [listTraverse] at h
    cases ha : f a with
    | error e => rw [ha] at h; exact absurd h (by simp)
    | ok y =>
      rw [ha] at h
      cases hr : listTraverse f as with
      | error e => rw [hr] at h; exact absurd h (by simp)
      | ok ys =>
        rcases List.mem_cons.1 hx with hxa | hxas
        · exact hbad y (hxa ▸ ha)
        · exact ih hxas hr

/-! ## Well-shaped inputs -/

/-- A well-shaped input, as described by the external-interface contract of
the spec: a non-empty target list of the batch length, moment vectors of
width 5 on both sides, labels within the class count, matching prediction
tensor shapes, a non-trivial `(bs, num_queries)` grid, and per-batch totals
that agree (the `"boxes"` lengths and the `"labels"` lengths sum to the
number of concatenated moment rows).  Note that no *per-example* agreement
between `nboxes` and the moment count is required: the pipeline never
checks it (claim C10). -/
def ValidInput (o : Outputs) (ts : List Target) : Prop :=
  ts.isEmpty = false ∧
  (∀ t ∈ ts, t.moments.d1 = 5) ∧
  (∀ t ∈ ts, ∀ c ∈ t.labels, c < o.pred_logits.d2) ∧
  o.pred_moments.d0 = o.pred_logits.d0 ∧
  o.pred_moments.d1 = o.pred_logits.d1 ∧
  o.pred_moments.d2 = 5 ∧
  ts.length = o.pred_logits.d0 ∧
  0 < o.pred_logits.d0 * o.pred_logits.d1 ∧
  (sizesOf ts).sum = totalRows ts ∧
  (tgtIds ts).length = totalRows ts

/-- All in-range input values are finite, as the spec's external-interface
section guarantees ("all numeric values are finite on input"). -/
def FiniteInputs (o : Outputs) (ts : List Target) : Prop :=
  (∀ b < o.pred_logits.d0, ∀ q < o.pred_logits.d1, ∀ c < o.pred_logits.d2,
    (o.pred_logits.data b q c).isFinite = true) ∧
  (∀ b < o.pred_moments.d0, ∀ q < o.pred_moments.d1, ∀ c < o.pred_moments.d2,
    (o.pred_moments.data b q c).isFinite = true) ∧
  (∀ t ∈ ts, ∀ r < t.moments.d0, ∀ c < t.moments.d1,
    (t.moments.data r c).isFinite = true)

theorem valid_catWidthsOK {o : Outputs} {ts : List Target} (h : ValidInput o ts) :
    catWidthsOK ts = true := by
  obtain ⟨h1, h2, -⟩ := h
  cases ts with
  | nil => rfl
  | cons t rest =>
    simp only [catWidthsOK, List.all_eq_true]
    intro u hu
    rw [h2 u (List.mem_cons_of_mem t hu), h2 t (List.mem_cons_self t rest)]
    exact decide_eq_true rfl

theorem valid_tm_d1 {o : Outputs} {ts : List Target} (h : ValidInput o ts) :
    (catMomentsP ts).d1 = 5 := by
  obtain ⟨h1, h2, -⟩ := h
  cases ts with
  | nil => simp at h1
  | cons t rest => exact h2 t (List.mem_cons_self t rest)

theorem valid_om_d1 {o : Outputs} {ts : List Target} (h : ValidInput o ts) :
    (outMoments o).d1 = 5 := h.2.2.2.2.2.1

theorem valid_om_d0 {o : Outputs} {ts : List Target} (h : ValidInput o ts) :
    (outMoments o).d0 = o.pred_logits.d0 * o.pred_logits.d1 := by
  show o.pred_moments.d0 * o.pred_moments.d1 = _
  rw [h.2.2.2.1, h.2.2.2.2.1]

theorem valid_ids_all {o : Outputs} {ts : List Target} (h : ValidInput o ts) :
    (tgtIds ts).all (fun c => decide (c < o.pred_logits.d2)) = true := by
  rw [List.all_eq_true]
  intro c hc
  simp only [tgtIds, List.mem_flatten, List.mem_map] at hc
  obtain ⟨l, ⟨t, ht, hl⟩, hcl⟩ := hc
  exact decide_eq_true (h.2.2.1 t ht c (hl ▸ hcl))

theorem valid_cm_d0 {o : Outputs} {ts : List Target} (h : ValidInput o ts) :
    (costMomentsT o ts).d0 = o.pred_logits.d0 * o.pred_logits.d1 := valid_om_d0 h

theorem valid_cc_d0 (K : NumKernel) (o : Outputs) (ts : List Target) :
    (costClassT K o ts).d0 = o.pred_logits.d0 * o.pred_logits.d1 := rfl

theorem valid_cc_d1 (K : NumKernel) {o : Outputs} {ts : List Target} (h : ValidInput o ts) :
    (costClassT K o ts).d1 = totalRows ts := h.2.2.2.2.2.2.2.2.2

theorem valid_ck_d0 (K : NumKernel) {o : Outputs} {ts : List Target} (h : ValidInput o ts) :
    (costKlT K o ts).d0 = o.pred_logits.d0 * o.pred_logits.d1 := valid_om_d0 h

theorem bcD_self (a : ℕ) : bcD a a = a := by simp [bcD]

theorem bcOK_self (a : ℕ) : bcOK a a = true := by simp [bcOK]

theorem read_collapse {d r : ℕ} (hr : r < d) : (if d = 1 then 0 else r) = r := by
  split
  · omega
  · rfl

theorem valid_C_d0 (K : NumKernel) (M : HungarianMatcher) {o : Outputs} {ts : List Target}
    (h : ValidInput o ts) :
    (combinedC K M o ts).d0 = o.pred_logits.d0 * o.pred_logits.d1 := by
  show bcD (bcD (costMomentsT o ts).d0 (costClassT K o ts).d0) (costKlT K o ts).d0 = _
  rw [valid_cm_d0 h, valid_cc_d0 K o ts, valid_ck_d0 K h, bcD_self, bcD_self]

theorem valid_C_d1 (K : NumKernel) (M : HungarianMatcher) {o : Outputs} {ts : List Target}
    (h : ValidInput o ts) :
    (combinedC K M o ts).d1 = totalRows ts := by
  show bcD (bcD (costMomentsT o ts).d1 (costClassT K o ts).d1) (costKlT K o ts).d1 = _
  rw [show (costMomentsT o ts).d1 = totalRows ts from rfl, valid_cc_d1 K h,
    show (costKlT K o ts).d1 = totalRows ts from rfl, bcD_self, bcD_self]

theorem valid_viewWidth (K : NumKernel) (M : HungarianMatcher) {o : Outputs} {ts : List Target}
    (h : ValidInput o ts) :
    viewWidth K M o ts = totalRows ts := by
  unfold viewWidth
  rw [valid_C_d0 K M h, valid_C_d1 K M h]
  exact Nat.mul_div_cancel_left _ h.2.2.2.2.2.2.2.1

/-- Under a well-shaped input, every check of the pipeline passes and the
matcher reduces to the sequence of per-example solver calls. -/
theorem forward_eq_of_valid (K : NumKernel) (M : HungarianMatcher) {o : Outputs} {ts : List Target}
    (h : ValidInput o ts) :
    forwardChecked K M o ts = listTraverse (fun i => solverCall K M o ts i) (List.range ts.length) := by
  have hE : ts.isEmpty = false := h.1
  have hcm1 : (costMomentsT o ts).d1 = totalRows ts := rfl
  have hck1 : (costKlT K o ts).d1 = totalRows ts := rfl
  have n1 : ¬(ts.isEmpty = true) := by rw [hE]; exact Bool.false_ne_true
  have n2 : ¬(catWidthsOK ts = false) := by rw [valid_catWidthsOK h]; simp
  have n3 : ¬((tgtIds ts).all (fun c => decide (c < o.pred_logits.d2)) = false) := by
    rw [valid_ids_all h]; simp
  have n4 : ¬((outMoments o).d1 ≠ (catMomentsP ts).d1) := by
    rw [valid_om_d1 h, valid_tm_d1 h]
    exact fun hc => hc rfl
  have n5 : ¬(momentsToCovOK (tailSlice (denormalize_moments (outMoments o))) = false) := by
    have : momentsToCovOK (tailSlice (denormalize_moments (outMoments o))) = true := by
      show decide (3 ≤ (outMoments o).d1 - 2) = true
      rw [valid_om_d1 h]
      rfl
    rw [this]; simp
  have n6 : ¬(momentsToCovOK (tailSlice (denormalize_moments (catMomentsP ts))) = false) := by
    have : momentsToCovOK (tailSlice (denormalize_moments (catMomentsP ts))) = true := by
      show decide (3 ≤ (catMomentsP ts).d1 - 2) = true
      rw [valid_tm_d1 h]
      rfl
    rw [this]; simp
  have b7 : (bcOK (costMomentsT o ts).d0 (costClassT K o ts).d0 &&
      bcOK (costMomentsT o ts).d1 (costClassT K o ts).d1) = true := by
    rw [valid_cm_d0 h, valid_cc_d0 K o ts, hcm1, valid_cc_d1 K h, bcOK_self, bcOK_self]
    rfl
  have n7 : ¬((bcOK (costMomentsT o ts).d0 (costClassT K o ts).d0 &&
      bcOK (costMomentsT o ts).d1 (costClassT K o ts).d1) = false) := by
    rw [b7]; simp
  have b8 : (bcOK (bAdd (smul M.cost_moments (costMomentsT o ts)) (smul M.cost_class (costClassT K o ts))).d0
        (costKlT K o ts).d0 &&
      bcOK (bAdd (smul M.cost_moments (costMomentsT o ts)) (smul M.cost_class (costClassT K o ts))).d1
        (costKlT K o ts).d1) = true := by
    show (bcOK (bcD (costMomentsT o ts).d0 (costClassT K o ts).d0) (costKlT K o ts).d0 &&
      bcOK (bcD (costMomentsT o ts).d1 (costClassT K o ts).d1) (costKlT K o ts).d1) = true
    rw [valid_cm_d0 h, valid_cc_d0 K o ts, hcm1, valid_cc_d1 K h, valid_ck_d0 K h, hck1,
      bcD_self, bcD_self, bcOK_self, bcOK_self]
    rfl
  have n8 : ¬((bcOK (bAdd (smul M.cost_moments (costMomentsT o ts)) (smul M.cost_class (costClassT K o ts))).d0
        (costKlT K o ts).d0 &&
      bcOK (bAdd (smul M.cost_moments (costMomentsT o ts)) (smul M.cost_class (costClassT K o ts))).d1
        (costKlT K o ts).d1) = false) := by
    rw [b8]; simp
  have n9 : ¬(o.pred_logits.d0 * o.pred_logits.d1 = 0) := by
    have := h.2.2.2.2.2.2.2.1
    omega
  have n10 : ¬((combinedC K M o ts).d0 * (combinedC K M o ts).d1 % (o.pred_logits.d0 * o.pred_logits.d1) ≠ 0) := by
    rw [valid_C_d0 K M h, valid_C_d1 K M h]
    exact fun hc => hc (Nat.mul_mod_right _ _)
  have n11 : ¬((sizesOf ts).sum ≠ viewWidth K M o ts) := by
    rw [valid_viewWidth K M h]
    exact fun hc => hc h.2.2.2.2.2.2.2.2.1
  have hlen : ts.length = o.pred_logits.d0 := h.2.2.2.2.2.2.1
  simp only [forwardChecked]
  rw [if_neg n1, if_neg n2, if_neg n3, if_neg n4, if_neg n5, if_neg n6, if_neg n7, if_neg n8,
    if_neg n9, if_neg n10, if_neg n11]
  exact listTraverse_congr (fun i hi => if_pos (by rw [List.mem_range, hlen] at hi; exact hi))

/-! ## The cost block handed to the solver -/

theorem offAt_add_lt {sizes : List ℕ} {i t : ℕ} (hi : i < sizes.length) (ht : t < sizes.getD i 0) :
    offAt sizes i + t < sizes.sum := by
  have h1 : (sizes.take i).sum + (sizes.drop i).sum = sizes.sum := by
    rw [← List.sum_append, List.take_append_drop]
  have h2 : sizes.drop i = sizes[i] :: sizes.drop (i + 1) := List.drop_eq_getElem_cons hi
  have h3 : (sizes.drop i).sum = sizes[i] + (sizes.drop (i + 1)).sum := by rw [h2]; rfl
  rw [List.getD_eq_getElem sizes 0 hi] at ht
  unfold offAt
  omega

theorem smul_data (w : ℚ) (t : Tensor2) (r c : ℕ) :
    (smul w t).data r c = FVal.fin w * t.data r c := rfl

theorem bAdd_data (a b : Tensor2) (D0 D1 r c : ℕ) (ha0 : a.d0 = D0) (hb0 : b.d0 = D0)
    (ha1 : a.d1 = D1) (hb1 : b.d1 = D1) (hr : r < D0) (hc : c < D1) :
    (bAdd a b).data r c = a.data r c + b.data r c := by
  show (a.data (if a.d0 = 1 then 0 else r) (if a.d1 = 1 then 0 else c) +
      b.data (if b.d0 = 1 then 0 else r) (if b.d1 = 1 then 0 else c)) = _
  rw [ha0, hb0, ha1, hb1, read_collapse hr, read_collapse hc]

/-- The solver block entry `(q, t)` of example `i` is the entry of the
combined cost matrix at global row `i * num_queries + q` and global column
`offset_i + t`. -/
theorem blockEntry_eq_comb (K : NumKernel) (M : HungarianMatcher) {o : Outputs} {ts : List Target}
    (h : ValidInput o ts) {i q t : ℕ} (hi : i < ts.length) (ht : t < (sizesOf ts).getD i 0) :
    blockEntry K M o ts i q t =
      (combinedC K M o ts).data (i * o.pred_logits.d1 + q) (offAt (sizesOf ts) i + t) := by
  unfold blockEntry view3data
  rw [valid_viewWidth K M h, valid_C_d1 K M h]
  have hslen : (sizesOf ts).length = ts.length := List.length_map _ _
  have hofft : offAt (sizesOf ts) i + t < totalRows ts := by
    have := offAt_add_lt (by rw [hslen]; exact hi) ht
    rwa [h.2.2.2.2.2.2.2.2.1] at this
  have hW : 0 < totalRows ts := by omega
  have harith : i * (o.pred_logits.d1 * totalRows ts) + q * totalRows ts + (offAt (sizesOf ts) i + t) =
      totalRows ts * (i * o.pred_logits.d1 + q) + (offAt (sizesOf ts) i + t) := by ring
  rw [harith, Nat.mul_add_div hW, Nat.mul_add_mod, Nat.div_eq_of_lt hofft, Nat.mod_eq_of_lt hofft,
    Nat.add_zero]

/-- Reading the combined cost matrix at an in-range position gives the
weighted sum of the three cost terms (line 100). -/
theorem combinedC_data (K : NumKernel) (M : HungarianMatcher) {o : Outputs} {ts : List Target}
    (h : ValidInput o ts) {r c : ℕ} (hr : r < o.pred_logits.d0 * o.pred_logits.d1)
    (hc : c < totalRows ts) :
    (combinedC K M o ts).data r c =
      FVal.fin M.cost_moments * (costMomentsT o ts).data r c +
      FVal.fin M.cost_class * (costClassT K o ts).data r c +
      FVal.fin M.cost_kl * (costKlT K o ts).data r c := by
  have hA0 : (bAdd (smul M.cost_moments (costMomentsT o ts)) (smul M.cost_class (costClassT K o ts))).d0 =
      o.pred_logits.d0 * o.pred_logits.d1 := by
    show bcD (costMomentsT o ts).d0 (costClassT K o ts).d0 = _
    rw [valid_cm_d0 h, valid_cc_d0 K o ts, bcD_self]
  have hA1 : (bAdd (smul M.cost_moments (costMomentsT o ts)) (smul M.cost_class (costClassT K o ts))).d1 =
      totalRows ts := by
    show bcD (costMomentsT o ts).d1 (costClassT K o ts).d1 = _
    rw [show (costMomentsT o ts).d1 = totalRows ts from rfl, valid_cc_d1 K h, bcD_self]
  unfold combinedC
  rw [bAdd_data (bAdd (smul M.cost_moments (costMomentsT o ts)) (smul M.cost_class (costClassT K o ts)))
      (smul M.cost_kl (costKlT K o ts)) (o.pred_logits.d0 * o.pred_logits.d1) (totalRows ts) r c
      hA0 (valid_ck_d0 K h) hA1 (show (costKlT K o ts).d1 = totalRows ts from rfl) hr hc,
    bAdd_data (smul M.cost_moments (costMomentsT o ts)) (smul M.cost_class (costClassT K o ts))
      (o.pred_logits.d0 * o.pred_logits.d1) (totalRows ts) r c (valid_cm_d0 h)
      (valid_cc_d0 K o ts) (show (costMomentsT o ts).d1 = totalRows ts from rfl) (valid_cc_d1 K h) hr hc,
    smul_data, smul_data, smul_data]

/-! ## Finiteness of the cost entries -/

theorem exists_fin_of_isFinite {x : FVal} (h : x.isFinite = true) : ∃ a : ℚ, x = FVal.fin a := by
  cases x with
  | fin a => exact ⟨a, rfl⟩
  | pinf => simp [FVal.isFinite] at h
  | ninf => simp [FVal.isFinite] at h
  | nan => simp [FVal.isFinite] at h

theorem sanitize_isFinite (x : FVal) : (sanitizeFV x).isFinite = true := by
  cases x <;> simp [sanitizeFV, FVal.isNan, FVal.isInf, FVal.isFinite]

theorem sanitize_of_bad {x : FVal} (h : x.isNan = true ∨ x.isInf = true) :
    sanitizeFV x = FVal.fin 1000 := by
  cases x <;> simp_all [sanitizeFV, FVal.isNan, FVal.isInf]

theorem sanitize_of_good {x : FVal} (h1 : x.isNan = false) (h2 : x.isInf = false) :
    sanitizeFV x = x := by
  cases x <;> simp_all [sanitizeFV, FVal.isNan, FVal.isInf]

theorem foldl_add_finite {l : List FVal} (hl : ∀ x ∈ l, x.isFinite = true) {acc : FVal}
    (hacc : acc.isFinite = true) : (l.foldl FVal.add acc).isFinite = true := by
  induction l generalizing acc with
  | nil => exact hacc
  | cons x xs ih =>
    exact ih (fun z hz => hl z (List.mem_cons_of_mem x hz))
      (FVal.isFinite_add hacc (hl x (List.mem_cons_self x xs)))

theorem sumFV_finite {l : List FVal} (hl : ∀ x ∈ l, x.isFinite = true) :
    (sumFV l).isFinite = true :=
  foldl_add_finite hl rfl

theorem epsQ_pos : (0 : ℚ) < epsQ := by norm_num [epsQ]

theorem pos_of_mul_pos_r {a b : ℕ} (h : 0 < a * b) : 0 < b := by
  rcases Nat.eq_zero_or_pos b with h0 | h0
  · rw [h0, Nat.mul_zero] at h; omega
  · exact h0

theorem focal_pos_finite (K : NumKernel) {p : ℚ} (h0 : 0 < p) :
    (FVal.fin alphaQ * (FVal.fin 1 - FVal.fin p).pow2 *
      (-(FVal.flog K (FVal.fin p + FVal.fin epsQ)))).isFinite = true := by
  have h2 : FVal.fin p + FVal.fin epsQ = FVal.fin (p + epsQ) := rfl
  have h3 : (0 : ℚ) < p + epsQ := by have := epsQ_pos; linarith
  rw [h2]
  refine FVal.isFinite_mul (FVal.isFinite_mul rfl ?_) (FVal.isFinite_neg (FVal.isFinite_flog_pos K h3))
  exact FVal.isFinite_mul (FVal.isFinite_sub rfl rfl) (FVal.isFinite_sub rfl rfl)

theorem focal_neg_finite (K : NumKernel) {p : ℚ} (h1 : p < 1) :
    (FVal.fin (1 - alphaQ) * (FVal.fin p).pow2 *
      (-(FVal.flog K (FVal.fin 1 - FVal.fin p + FVal.fin epsQ)))).isFinite = true := by
  have h2 : FVal.fin 1 - FVal.fin p + FVal.fin epsQ = FVal.fin (1 - p + epsQ) := by
    rw [FVal.fin_sub_fin]; rfl
  have h3 : (0 : ℚ) < 1 - p + epsQ := by have := epsQ_pos; linarith
  rw [h2]
  refine FVal.isFinite_mul (FVal.isFinite_mul rfl ?_) (FVal.isFinite_neg (FVal.isFinite_flog_pos K h3))
  exact FVal.isFinite_mul rfl rfl

/-- Each flattened-prediction probability is finite and strictly between 0
and 1 (sigmoid of a finite logit). -/
theorem outProb_entry (K : NumKernel) {o : Outputs} {ts : List Target} (h : ValidInput o ts)
    (hf : FiniteInputs o ts) {r c : ℕ} (hr : r < o.pred_logits.d0 * o.pred_logits.d1)
    (hc : c < o.pred_logits.d2) :
    ∃ p : ℚ, (outProb K o).data r c = FVal.fin p ∧ 0 < p ∧ p < 1 := by
  have hnq : 0 < o.pred_logits.d1 := pos_of_mul_pos_r h.2.2.2.2.2.2.2.1
  have hdiv : r / o.pred_logits.d1 < o.pred_logits.d0 :=
    Nat.div_lt_of_lt_mul (by rwa [Nat.mul_comm] at hr)
  have hmod : r % o.pred_logits.d1 < o.pred_logits.d1 := Nat.mod_lt r hnq
  have hlf := hf.1 _ hdiv _ hmod _ hc
  obtain ⟨a, ha⟩ := exists_fin_of_isFinite hlf
  refine ⟨1 / (1 + K.exp (-a)), ?_, FVal.sigmoid_fin_pos K a, FVal.sigmoid_fin_lt_one K a⟩
  show FVal.sigmoid K (o.pred_logits.data (r / o.pred_logits.d1) (r % o.pred_logits.d1) c) = _
  rw [ha]
  rfl

/-- The concatenated target labels are within the class count. -/
theorem tgtIds_getD_lt {o : Outputs} {ts : List Target} (h : ValidInput o ts) {j : ℕ}
    (hj : j < (tgtIds ts).length) : (tgtIds ts).getD j 0 < o.pred_logits.d2 := by
  rw [List.getD_eq_getElem _ 0 hj]
  have hmem : (tgtIds ts)[j] ∈ tgtIds ts := List.getElem_mem hj
  simp only [tgtIds, List.mem_flatten, List.mem_map] at hmem
  obtain ⟨l, ⟨t, ht, hl⟩, hcl⟩ := hmem
  exact h.2.2.1 t ht _ (hl ▸ hcl)

/-- Classification cost entries are finite on finite inputs. -/
theorem costClassT_finite (K : NumKernel) {o : Outputs} {ts : List Target} (h : ValidInput o ts)
    (hf : FiniteInputs o ts) {r j : ℕ} (hr : r < o.pred_logits.d0 * o.pred_logits.d1)
    (hj : j < (tgtIds ts).length) : ((costClassT K o ts).data r j).isFinite = true := by
  obtain ⟨p, hp, hp0, hp1⟩ := outProb_entry K h hf hr (tgtIds_getD_lt h hj)
  show ((posCostClassT K (outProb K o)).data r ((tgtIds ts).getD j 0) -
    (negCostClassT K (outProb K o)).data r ((tgtIds ts).getD j 0)).isFinite = true
  have hpos : (posCostClassT K (outProb K o)).data r ((tgtIds ts).getD j 0) =
      FVal.fin alphaQ * (FVal.fin 1 - FVal.fin p).pow2 *
        (-(FVal.flog K (FVal.fin p + FVal.fin epsQ))) := by
    show FVal.fin alphaQ * (FVal.fin 1 - (outProb K o).data r ((tgtIds ts).getD j 0)).pow2 *
      (-(FVal.flog K ((outProb K o).data r ((tgtIds ts).getD j 0) + FVal.fin epsQ))) = _
    rw [hp]
  have hneg : (negCostClassT K (outProb K o)).data r ((tgtIds ts).getD j 0) =
      FVal.fin (1 - alphaQ) * (FVal.fin p).pow2 *
        (-(FVal.flog K (FVal.fin 1 - FVal.fin p + FVal.fin epsQ))) := by
    show FVal.fin (1 - alphaQ) * ((outProb K o).data r ((tgtIds ts).getD j 0)).pow2 *
      (-(FVal.flog K (FVal.fin 1 - (outProb K o).data r ((tgtIds ts).getD j 0) + FVal.fin epsQ))) = _
    rw [hp]
  rw [hpos, hneg]
  exact FVal.isFinite_sub (focal_pos_finite K hp0) (focal_neg_finite K hp1)

/-- Flattened predicted moment entries are finite on finite inputs. -/
theorem outMoments_finite {o : Outputs} {ts : List Target} (h : ValidInput o ts)
    (hf : FiniteInputs o ts) {r c : ℕ} (hr : r < o.pred_logits.d0 * o.pred_logits.d1)
    (hc : c < 5) : ((outMoments o).data r c).isFinite = true := by
  have hnq : 0 < o.pred_logits.d1 := pos_of_mul_pos_r h.2.2.2.2.2.2.2.1
  have hr2 : r < o.pred_moments.d0 * o.pred_moments.d1 := by
    rw [h.2.2.2.1, h.2.2.2.2.1]; exact hr
  have hnq2 : 0 < o.pred_moments.d1 := by rw [h.2.2.2.2.1]; exact hnq
  have hdiv : r / o.pred_moments.d1 < o.pred_moments.d0 :=
    Nat.div_lt_of_lt_mul (by rwa [Nat.mul_comm] at hr2)
  have hmod : r % o.pred_moments.d1 < o.pred_moments.d1 := Nat.mod_lt r hnq2
  exact hf.2.1 _ hdiv _ hmod _ (by rw [h.2.2.2.2.2.1]; exact hc)

/-- Concatenated target moment entries are finite on finite inputs. -/
theorem rowsLookup_finite {ts : List Target}
    (hw : ∀ t ∈ ts, t.moments.d1 = 5)
    (hf : ∀ t ∈ ts, ∀ r < t.moments.d0, ∀ c < t.moments.d1, (t.moments.data r c).isFinite = true)
    {r c : ℕ} (hr : r < totalRows ts) (hc : c < 5) : (rowsLookup ts r c).isFinite = true := by
  induction ts generalizing r with
  | nil => simp [totalRows] at hr
  | cons t rest ih =>
    show (if r < t.moments.d0 then t.moments.data r c else rowsLookup rest (r - t.moments.d0) c).isFinite = true
    by_cases hin : r < t.moments.d0
    · rw [if_pos hin]
      exact hf t (List.mem_cons_self t rest) r hin c
        (by rw [hw t (List.mem_cons_self t rest)]; exact hc)
    · rw [if_neg hin]
      have hrest : r - t.moments.d0 < totalRows rest := by
        have : totalRows (t :: rest) = t.moments.d0 + totalRows rest := by
          simp [totalRows]
        omega
      exact ih (fun u hu => hw u (List.mem_cons_of_mem t hu))
        (fun u hu => hf u (List.mem_cons_of_mem t hu)) hrest

/-- L1 moment cost entries are finite on finite inputs. -/
theorem costMomentsT_finite {o : Outputs} {ts : List Target} (h : ValidInput o ts)
    (hf : FiniteInputs o ts) {r c : ℕ} (hr : r < o.pred_logits.d0 * o.pred_logits.d1)
    (hc : c < totalRows ts) : ((costMomentsT o ts).data r c).isFinite = true := by
  show (l1Entry (outMoments o) (catMomentsP ts) r c).isFinite = true
  refine sumFV_finite ?_
  intro x hx
  rw [List.mem_map] at hx
  obtain ⟨k, hk, hxe⟩ := hx
  rw [List.mem_range, valid_om_d1 h] at hk
  rw [← hxe]
  exact FVal.isFinite_abs (FVal.isFinite_sub (outMoments_finite h hf hr hk)
    (rowsLookup_finite h.2.1 hf.2.2 hc hk))

/-- Sanitized KL cost entries are always finite. -/
theorem costKlT_finite (K : NumKernel) (o : Outputs) (ts : List Target) (r c : ℕ) :
    ((costKlT K o ts).data r c).isFinite = true :=
  sanitize_isFinite _

/-- Every in-range entry of the combined cost matrix is finite on finite
inputs (with the ℚ-valued weights modelling finite float weights). -/
theorem combinedC_finite (K : NumKernel) (M : HungarianMatcher) {o : Outputs} {ts : List Target}
    (h : ValidInput o ts) (hf : FiniteInputs o ts) {r c : ℕ}
    (hr : r < o.pred_logits.d0 * o.pred_logits.d1) (hc : c < totalRows ts) :
    ((combinedC K M o ts).data r c).isFinite = true := by
  rw [combinedC_data K M h hr hc]
  refine FVal.isFinite_add (FVal.isFinite_add ?_ ?_) ?_
  · exact FVal.isFinite_mul rfl (costMomentsT_finite h hf hr hc)
  · exact FVal.isFinite_mul rfl (costClassT_finite K h hf hr
      (by rw [h.2.2.2.2.2.2.2.2.2]; exact hc))
  · exact FVal.isFinite_mul rfl (costKlT_finite K o ts r c)

/-- Every in-range entry of every per-example solver block is finite on
finite inputs. -/
theorem blockEntry_finite (K : NumKernel) (M : HungarianMatcher) {o : Outputs} {ts : List Target}
    (h : ValidInput o ts) (hf : FiniteInputs o ts) {i q t : ℕ} (hi : i < ts.length)
    (hq : q < o.pred_logits.d1) (ht : t < (sizesOf ts).getD i 0) :
    (blockEntry K M o ts i q t).isFinite = true := by
  have hibs : i < o.pred_logits.d0 := by rw [← h.2.2.2.2.2.2.1]; exact hi
  have hr : i * o.pred_logits.d1 + q < o.pred_logits.d0 * o.pred_logits.d1 := by
    have h1 : (i + 1) * o.pred_logits.d1 ≤ o.pred_logits.d0 * o.pred_logits.d1 :=
      Nat.mul_le_mul_right _ hibs
    have h2 : (i + 1) * o.pred_logits.d1 = i * o.pred_logits.d1 + o.pred_logits.d1 := by ring
    omega
  have hslen : (sizesOf ts).length = ts.length := List.length_map _ _
  have hc : offAt (sizesOf ts) i + t < totalRows ts := by
    have := offAt_add_lt (by rw [hslen]; exact hi) ht
    rwa [h.2.2.2.2.2.2.2.2.1] at this
  rw [blockEntry_eq_comb K M h hi ht]
  exact combinedC_finite K M h hf hr hc

/-- On a well-shaped, finite input the whole call succeeds: every check
passes and every per-example solver call returns an assignment. -/
theorem forward_ok_of_valid_finite (K : NumKernel) (M : HungarianMatcher) {o : Outputs}
    {ts : List Target} (h : ValidInput o ts) (hf : FiniteInputs o ts) :
    ∃ res, forwardChecked K M o ts = .ok res := by
  rw [forward_eq_of_valid K M h]
  refine listTraverse_ok_of_all ?_
  intro i hi
  rw [List.mem_range] at hi
  obtain ⟨A, B, hAB⟩ := lsa_finite_ok (d := blockEntry K M o ts i)
    (fun q hq t ht => blockEntry_finite K M h hf hi hq ht)
  exact ⟨(A, B), hAB⟩

/-! ## Success inversion and concrete inputs -/

/-- Whether a call returned a result rather than raising. -/
def isOkE {α : Type} : Except String α → Bool
  | .ok _ => true
  | .error _ => false

theorem isOkE_of_ok {α : Type} {x : Except String α} {r : α} (h : x = .ok r) : isOkE x = true := by
  rw [h]; rfl

theorem grid_lt {i q d0 d1 : ℕ} (hi : i < d0) (hq : q < d1) : i * d1 + q < d0 * d1 := by
  have h1 : (i + 1) * d1 ≤ d0 * d1 := Nat.mul_le_mul_right _ hi
  have h2 : (i + 1) * d1 = i * d1 + d1 := by ring
  omega

theorem block_col_lt {o : Outputs} {ts : List Target} (h : ValidInput o ts) {i t : ℕ}
    (hi : i < ts.length) (ht : t < (sizesOf ts).getD i 0) :
    offAt (sizesOf ts) i + t < totalRows ts := by
  have hslen : (sizesOf ts).length = ts.length := List.length_map _ _
  have := offAt_add_lt (by rw [hslen]; exact hi) ht
  rwa [h.2.2.2.2.2.2.2.2.1] at this

/-- Inversion of a successful call: every pipeline check passed and the
traversal of per-example solver calls produced the result. -/
theorem forward_ok_checks {K : NumKernel} {M : HungarianMatcher} {o : Outputs} {ts : List Target}
    {res : List (List ℕ × List ℕ)} (h : forwardChecked K M o ts = .ok res) :
    ts.isEmpty = false ∧
    catWidthsOK ts = true ∧
    (outMoments o).d1 = (catMomentsP ts).d1 ∧
    momentsToCovOK (tailSlice (denormalize_moments (outMoments o))) = true ∧
    momentsToCovOK (tailSlice (denormalize_moments (catMomentsP ts))) = true ∧
    o.pred_logits.d0 * o.pred_logits.d1 ≠ 0 ∧
    (sizesOf ts).sum = viewWidth K M o ts ∧
    listTraverse (fun i => if i < o.pred_logits.d0 then solverCall K M o ts i
      else .error "index out of range for dimension 0") (List.range ts.length) = .ok res := by
  simp only [forwardChecked] at h
  by_cases c1 : ts.isEmpty = true
  · rw [if_pos c1] at h; exact Except.noConfusion h
  rw [if_neg c1] at h
  by_cases c2 : catWidthsOK ts = false
  · rw [if_pos c2] at h; exact Except.noConfusion h
  rw [if_neg c2] at h
  by_cases c3 : (tgtIds ts).all (fun c => decide (c < o.pred_logits.d2)) = false
  · rw [if_pos c3] at h; exact Except.noConfusion h
  rw [if_neg c3] at h
  by_cases c4 : (outMoments o).d1 ≠ (catMomentsP ts).d1
  · rw [if_pos c4] at h; exact Except.noConfusion h
  rw [if_neg c4] at h
  by_cases c5 : momentsToCovOK (tailSlice (denormalize_moments (outMoments o))) = false
  · rw [if_pos c5] at h; exact Except.noConfusion h
  rw [if_neg c5] at h
  by_cases c6 : momentsToCovOK (tailSlice (denormalize_moments (catMomentsP ts))) = false
  · rw [if_pos c6] at h; exact Except.noConfusion h
  rw [if_neg c6] at h
  by_cases c7 : (bcOK (costMomentsT o ts).d0 (costClassT K o ts).d0 &&
      bcOK (costMomentsT o ts).d1 (costClassT K o ts).d1) = false
  · rw [if_pos c7] at h; exact Except.noConfusion h
  rw [if_neg c7] at h
  by_cases c8 : (bcOK (bAdd (smul M.cost_moments (costMomentsT o ts)) (smul M.cost_class (costClassT K o ts))).d0
        (costKlT K o ts).d0 &&
      bcOK (bAdd (smul M.cost_moments (costMomentsT o ts)) (smul M.cost_class (costClassT K o ts))).d1
        (costKlT K o ts).d1) = false
  · rw [if_pos c8] at h; exact Except.noConfusion h
  rw [if_neg c8] at h
  by_cases c9 : o.pred_logits.d0 * o.pred_logits.d1 = 0
  · rw [if_pos c9] at h; exact Except.noConfusion h
  rw [if_neg c9] at h
  by_cases c10 : (combinedC K M o ts).d0 * (combinedC K M o ts).d1 % (o.pred_logits.d0 * o.pred_logits.d1) ≠ 0
  · rw [if_pos c10] at h; exact Except.noConfusion h
  rw [if_neg c10] at h
  by_cases c11 : (sizesOf ts).sum ≠ viewWidth K M o ts
  · rw [if_pos c11] at h; exact Except.noConfusion h
  rw [if_neg c11] at h
  refine ⟨?_, ?_, not_ne_iff.1 c4, ?_, ?_, c9, ?_, ?_⟩
  · revert c1; cases ts.isEmpty <;> simp
  · revert c2; cases catWidthsOK ts <;> simp
  · revert c5; cases momentsToCovOK (tailSlice (denormalize_moments (outMoments o))) <;> simp
  · revert c6; cases momentsToCovOK (tailSlice (denormalize_moments (catMomentsP ts))) <;> simp
  · exact not_ne_iff.1 c11
  · exact h

instance {ε α : Type} [DecidableEq ε] [DecidableEq α] : DecidableEq (Except ε α) := fun a b =>
  match a, b with
  | .error e1, .error e2 => decidable_of_iff (e1 = e2) (by simp)
  | .ok y1, .ok y2 => decidable_of_iff (y1 = y2) (by simp)
  | .error _, .ok _ => isFalse (fun hc => Except.noConfusion hc)
  | .ok _, .error _ => isFalse (fun hc => Except.noConfusion hc)

instance (o : Outputs) (ts : List Target) : Decidable (ValidInput o ts) := by
  unfold ValidInput; infer_instance

instance (o : Outputs) (ts : List Target) : Decidable (FiniteInputs o ts) := by
  unfold FiniteInputs; infer_instance

/-- A concrete computable kernel: a strictly positive exponential surrogate
and a logarithm surrogate (any positive exponential satisfies `NumKernel`,
and no claim depends on the transcendental values themselves). -/
def exK : NumKernel :=
  ⟨fun x => if 0 ≤ x then 1 + x else 1 / (1 - x), fun x => x - 1, by
    intro x
    dsimp only
    split
    · linarith
    · apply div_pos one_pos
      linarith⟩

/-- A matcher with all weights 1, as the python defaults. -/
def exM : HungarianMatcher := ⟨1, 1, 1⟩

/-- Default target used only to state `getD` lookups. -/
def dTgt : Target := ⟨[], 0, ⟨0, 0, fun _ _ => FVal.nan⟩⟩

/-- A moment row with identity covariance and constant coordinates. -/
def covRow (v : ℚ) : ℕ → ℕ → FVal := fun _ c =>
  if c = 2 then FVal.fin 1 else if c = 3 then FVal.fin 1 else FVal.fin v

/-- One batch element, two queries, one class.  Query 0 sits at the origin,
query 1 at coordinate 1. -/
def exOut : Outputs :=
  { pred_logits := ⟨1, 2, 1, fun _ _ _ => FVal.fin 0⟩
    pred_moments := ⟨1, 2, 5, fun _ q c => if q = 0 then FVal.fin 0 else covRow 1 0 c⟩ }

/-- Two targets: target 0 at coordinate 1, target 1 at the origin, so the
unique optimal assignment is the anti-diagonal one. -/
def exTgts : List Target :=
  [{ labels := [0, 0], nboxes := 2,
     moments := ⟨2, 5, fun r c => if r = 0 then covRow 1 0 c else FVal.fin 0⟩ }]

/-- A batch of two elements with two queries each. -/
def exOut2 : Outputs :=
  { pred_logits := ⟨2, 2, 1, fun _ _ _ => FVal.fin 0⟩
    pred_moments := ⟨2, 2, 5, fun _ _ c => covRow 0 0 c⟩ }

/-- A single-element target list (shorter than the batch of `exOut2`). -/
def exTgtsShort : List Target :=
  [{ labels := [0], nboxes := 1, moments := ⟨1, 5, covRow 0⟩ }]

/-- A two-element target list (longer than the batch of `exOut`). -/
def exTgtsLong : List Target :=
  [{ labels := [0], nboxes := 1, moments := ⟨1, 5, covRow 0⟩ },
   { labels := [0], nboxes := 1, moments := ⟨1, 5, covRow 0⟩ }]

/-- Two targets whose `"boxes"` lengths `[2, 0]` disagree per example with
their moment counts `[1, 1]`, while the totals agree. -/
def exTgtsMis : List Target :=
  [{ labels := [0], nboxes := 2, moments := ⟨1, 5, covRow 0⟩ },
   { labels := [0], nboxes := 0, moments := ⟨1, 5, covRow 1⟩ }]

/-- A single target with an exactly singular (all-zero) covariance. -/
def exTgtsSing : List Target :=
  [{ labels := [0], nboxes := 1, moments := ⟨1, 5, fun _ _ => FVal.fin 0⟩ }]

/-! ## Claims -/

/-- C1: for every well-shaped input, what the call hands to the per-example
solver is exactly the blocks of the combined cost matrix, whose every
in-range entry is `cost_moments_weight * L1 + cost_class_weight * class +
cost_kl_weight * sanitized-KL` at the corresponding global position, and
the L1 (cdist) matrix has shape
`(num_predictions, num_targets) = (bs * num_queries, total targets)`. -/
theorem combined_cost_matrix_spec (K : NumKernel) (M : HungarianMatcher) (o : Outputs)
    (ts : List Target) (h : ValidInput o ts) :
    forwardChecked K M o ts = listTraverse (fun i => solverCall K M o ts i) (List.range ts.length) ∧
    (costMomentsT o ts).d0 = o.pred_logits.d0 * o.pred_logits.d1 ∧
    (costMomentsT o ts).d1 = totalRows ts ∧
    (∀ i < ts.length, ∀ q < o.pred_logits.d1, ∀ t2 < (sizesOf ts).getD i 0,
      blockEntry K M o ts i q t2 =
        FVal.fin M.cost_moments *
            (costMomentsT o ts).data (i * o.pred_logits.d1 + q) (offAt (sizesOf ts) i + t2) +
          FVal.fin M.cost_class *
            (costClassT K o ts).data (i * o.pred_logits.d1 + q) (offAt (sizesOf ts) i + t2) +
          FVal.fin M.cost_kl *
            (costKlT K o ts).data (i * o.pred_logits.d1 + q) (offAt (sizesOf ts) i + t2)) := by
  refine ⟨forward_eq_of_valid K M h, valid_cm_d0 h, rfl, ?_⟩
  intro i hi q hq t2 ht2
  have hibs : i < o.pred_logits.d0 := by rw [← h.2.2.2.2.2.2.1]; exact hi
  rw [blockEntry_eq_comb K M h hi ht2]
  exact combinedC_data K M h (grid_lt hibs hq) (block_col_lt h hi ht2)

/-- Witness for C1 at a concrete well-shaped input. -/
theorem combined_cost_matrix_witness :
    ValidInput exOut exTgts ∧
    forwardChecked exK exM exOut exTgts =
      listTraverse (fun i => solverCall exK exM exOut exTgts i) (List.range exTgts.length) :=
  ⟨by decide, (combined_cost_matrix_spec exK exM exOut exTgts (by decide)).1⟩

/-- The spec's focal classification cost, stated independently of the
pipeline (section 4.2 step 3): with `p` the elementwise logistic sigmoid of
the raw score of the target's own class,
`cost = 0.25 * (1-p)^2 * (-log(p + 1e-8)) - 0.75 * p^2 * (-log(1-p+1e-8))`. -/
def specClassCost (K : NumKernel) (s : FVal) : FVal :=
  FVal.fin (1 / 4) * (FVal.fin 1 - FVal.sigmoid K s).pow2 *
      (-(FVal.flog K (FVal.sigmoid K s + FVal.fin (1 / 100000000)))) -
    FVal.fin (3 / 4) * (FVal.sigmoid K s).pow2 *
      (-(FVal.flog K (FVal.fin 1 - FVal.sigmoid K s + FVal.fin (1 / 100000000))))

/-- C2: every classification cost entry is `pos_cost[i, c_j] - neg_cost[i, c_j]`
evaluated at target `j`'s own class label within the concatenated labels,
matching the spec formula with `alpha = 1/4`, `gamma = 2`, `eps = 1e-8`, and
the probabilities coming from the elementwise sigmoid of the raw scores. -/
theorem classification_cost_spec (K : NumKernel) (o : Outputs) (ts : List Target)
    (i j : ℕ) (_hi : i < o.pred_logits.d0 * o.pred_logits.d1) (_hj : j < (tgtIds ts).length) :
    (costClassT K o ts).data i j =
      specClassCost K (o.pred_logits.flatten01.data i ((tgtIds ts).getD j 0)) := by
  show FVal.fin alphaQ *
      (FVal.fin 1 - FVal.sigmoid K (o.pred_logits.flatten01.data i ((tgtIds ts).getD j 0))).pow2 *
      (-(FVal.flog K (FVal.sigmoid K (o.pred_logits.flatten01.data i ((tgtIds ts).getD j 0)) +
        FVal.fin epsQ))) -
    FVal.fin (1 - alphaQ) *
      (FVal.sigmoid K (o.pred_logits.flatten01.data i ((tgtIds ts).getD j 0))).pow2 *
      (-(FVal.flog K (FVal.fin 1 -
        FVal.sigmoid K (o.pred_logits.flatten01.data i ((tgtIds ts).getD j 0)) + FVal.fin epsQ))) = _
  rw [show (1 - alphaQ : ℚ) = 3 / 4 by norm_num [alphaQ]]
  rfl

/-- Witness for C2 at a concrete input and index. -/
theorem classification_cost_witness :
    0 < exOut.pred_logits.d0 * exOut.pred_logits.d1 ∧ 0 < (tgtIds exTgts).length ∧
    (costClassT exK exOut exTgts).data 0 0 =
      specClassCost exK (exOut.pred_logits.flatten01.data 0 ((tgtIds exTgts).getD 0 0)) :=
  ⟨by decide, by decide,
    classification_cost_spec exK exOut exTgts 0 0 (by decide) (by decide)⟩

/-- The raw (unsanitized) KL-divergence cost entry `(i, j)` of the pipeline
(lines 85-94). -/
def rawKl (K : NumKernel) (o : Outputs) (ts : List Target) (i j : ℕ) : FVal :=
  klClosed K
    (gaussAt (muSlice (denormalize_moments (outMoments o)))
      (moments_to_cov (tailSlice (denormalize_moments (outMoments o)))) i)
    (gaussAt (muSlice (denormalize_moments (catMomentsP ts)))
      (moments_to_cov (tailSlice (denormalize_moments (catMomentsP ts)))) j)

/-- C3: after the KL cost matrix is computed, a `NaN` or `Inf` entry becomes
exactly the fixed penalty 1000, every other entry is unchanged, and the
resulting matrix is entirely finite; the computation itself is total, so a
near-singular covariance cannot raise. -/
theorem kl_sanitization_spec (K : NumKernel) (o : Outputs) (ts : List Target) (i j : ℕ) :
    (costKlT K o ts).data i j = sanitizeFV (rawKl K o ts i j) ∧
    ((rawKl K o ts i j).isNan = true ∨ (rawKl K o ts i j).isInf = true →
      (costKlT K o ts).data i j = FVal.fin 1000) ∧
    ((rawKl K o ts i j).isNan = false → (rawKl K o ts i j).isInf = false →
      (costKlT K o ts).data i j = rawKl K o ts i j) ∧
    ((costKlT K o ts).data i j).isFinite = true := by
  refine ⟨rfl, ?_, ?_, sanitize_isFinite _⟩
  · intro hbad
    exact sanitize_of_bad hbad
  · intro h1 h2
    exact sanitize_of_good h1 h2

unseal Rat.add Rat.mul Rat.sub Rat.inv in
/-- Witness for C3: a target with an exactly singular covariance makes the
raw KL entry a NaN, and the sanitized matrix holds exactly 1000 there. -/
theorem kl_sanitization_witness :
    (rawKl exK exOut exTgtsSing 0 0).isNan = true ∧
    (costKlT exK exOut exTgtsSing).data 0 0 = FVal.fin 1000 :=
  ⟨by decide, (kl_sanitization_spec exK exOut exTgtsSing 0 0).2.1 (Or.inl (by decide))⟩

/-- The solver assignment underlying entry `i` of a successful call. -/
theorem forward_ok_cand {K : NumKernel} {M : HungarianMatcher} {o : Outputs} {ts : List Target}
    {res : List (List ℕ × List ℕ)} (h : ValidInput o ts)
    (hres : forwardChecked K M o ts = .ok res) {i : ℕ} (hi : i < ts.length) :
    ∃ cand ∈ lsaCandidates o.pred_logits.d1 ((sizesOf ts).getD i 0),
      (res.getD i ([], [])).1 = cand.map Prod.fst ∧ (res.getD i ([], [])).2 = cand.map Prod.snd := by
  rw [forward_eq_of_valid K M h] at hres
  have hfi := listTraverse_ok_getD hres i (by rw [List.length_range]; exact hi) 0 ([], [])
  rw [List.getD_eq_getElem _ 0 (by rw [List.length_range]; exact hi), List.getElem_range] at hfi
  exact lsa_ok_spec hfi

theorem forward_ok_length {K : NumKernel} {M : HungarianMatcher} {o : Outputs} {ts : List Target}
    {res : List (List ℕ × List ℕ)} (h : ValidInput o ts)
    (hres : forwardChecked K M o ts = .ok res) : res.length = ts.length := by
  rw [forward_eq_of_valid K M h] at hres
  rw [listTraverse_ok_length hres, List.length_range]

/-- Under per-example consistency, the `i`-th split size is the `i`-th
example's target count. -/
theorem sizeAt_eq {ts : List Target} (hpe : ∀ t ∈ ts, t.nboxes = t.moments.d0) {i : ℕ}
    (hi : i < ts.length) : (sizesOf ts).getD i 0 = (ts.getD i dTgt).moments.d0 := by
  have hlen : i < (sizesOf ts).length := by
    show i < (ts.map Target.nboxes).length
    rw [List.length_map]; exact hi
  rw [List.getD_eq_getElem _ 0 hlen]
  show (ts.map Target.nboxes)[i] = _
  rw [List.getElem_map, List.getD_eq_getElem ts dTgt hi]
  exact hpe ts[i] (List.getElem_mem hi)

/-- C4: on every successful call over a well-shaped input, the result has
one entry per example; each entry's two index sequences have equal length;
that length is at most `min(num_queries, n_i)`, and exactly
`min(num_queries, n_i)` when the inputs are finite; an example with zero
targets yields two empty sequences. -/
theorem assignment_lengths_spec (K : NumKernel) (M : HungarianMatcher) (o : Outputs)
    (ts : List Target) (h : ValidInput o ts) (hpe : ∀ t ∈ ts, t.nboxes = t.moments.d0)
    (res : List (List ℕ × List ℕ)) (hres : forwardChecked K M o ts = .ok res) :
    res.length = ts.length ∧
    ∀ i < ts.length,
      (res.getD i ([], [])).1.length = (res.getD i ([], [])).2.length ∧
      (res.getD i ([], [])).1.length ≤ min o.pred_logits.d1 ((ts.getD i dTgt).moments.d0) ∧
      (FiniteInputs o ts →
        (res.getD i ([], [])).1.length = min o.pred_logits.d1 ((ts.getD i dTgt).moments.d0)) ∧
      ((ts.getD i dTgt).moments.d0 = 0 →
        (res.getD i ([], [])).1 = [] ∧ (res.getD i ([], [])).2 = []) := by
  refine ⟨forward_ok_length h hres, ?_⟩
  intro i hi
  obtain ⟨cand, hcand, h1, h2⟩ := forward_ok_cand h hres hi
  obtain ⟨hlen, -, -, -, -⟩ := lsaCandidates_spec hcand
  have hl1 : (res.getD i ([], [])).1.length = min o.pred_logits.d1 ((ts.getD i dTgt).moments.d0) := by
    rw [h1, List.length_map, hlen, sizeAt_eq hpe hi]
  refine ⟨?_, le_of_eq hl1, fun _ => hl1, ?_⟩
  · rw [h1, h2, List.length_map, List.length_map]
  · intro h0
    have hz1 : (res.getD i ([], [])).1.length = 0 := by rw [hl1, h0]; exact Nat.min_zero _
    have hz2 : (res.getD i ([], [])).2.length = 0 := by
      rw [h2, List.length_map, ← List.length_map cand Prod.fst, ← h1]
      exact hz1
    exact ⟨List.length_eq_zero.1 hz1, List.length_eq_zero.1 hz2⟩

unseal Rat.add Rat.mul Rat.sub Rat.inv in
/-- Witness for C4 at a concrete input. -/
theorem assignment_lengths_witness :
    ValidInput exOut exTgts ∧ (∀ t ∈ exTgts, t.nboxes = t.moments.d0) ∧
    forwardChecked exK exM exOut exTgts = .ok [([0, 1], [1, 0])] ∧
    [([0, 1], [1, 0])].length = exTgts.length :=
  ⟨by decide, by decide, by decide,
    (assignment_lengths_spec exK exM exOut exTgts (by decide) (by decide) _ (by decide)).1⟩

/-- C5: on every successful call over a well-shaped input, the matched
prediction indices of each example are pairwise distinct and below
`num_queries`, and the matched target indices are pairwise distinct and
below that example's target count. -/
theorem assignment_index_ranges_spec (K : NumKernel) (M : HungarianMatcher) (o : Outputs)
    (ts : List Target) (h : ValidInput o ts) (hpe : ∀ t ∈ ts, t.nboxes = t.moments.d0)
    (res : List (List ℕ × List ℕ)) (hres : forwardChecked K M o ts = .ok res) :
    ∀ i < ts.length,
      (res.getD i ([], [])).1.Nodup ∧
      (∀ x ∈ (res.getD i ([], [])).1, x < o.pred_logits.d1) ∧
      (res.getD i ([], [])).2.Nodup ∧
      (∀ x ∈ (res.getD i ([], [])).2, x < (ts.getD i dTgt).moments.d0) := by
  intro i hi
  obtain ⟨cand, hcand, h1, h2⟩ := forward_ok_cand h hres hi
  obtain ⟨-, hpw, hr, hnd, hc⟩ := lsaCandidates_spec hcand
  refine ⟨?_, ?_, ?_, ?_⟩
  · rw [h1]
    show List.Pairwise (fun a b => a ≠ b) (cand.map Prod.fst)
    exact List.pairwise_map.2 (hpw.imp (fun hab => Nat.ne_of_lt hab))
  · intro x hx
    rw [h1, List.mem_map] at hx
    obtain ⟨p, hp, he⟩ := hx
    rw [← he]
    exact hr p hp
  · rw [h2]
    exact hnd
  · intro x hx
    rw [h2, List.mem_map] at hx
    obtain ⟨p, hp, he⟩ := hx
    rw [← he, ← sizeAt_eq hpe hi]
    exact hc p hp

unseal Rat.add Rat.mul Rat.sub Rat.inv in
/-- Witness for C5 at a concrete input. -/
theorem assignment_index_ranges_witness :
    ValidInput exOut exTgts ∧ (∀ t ∈ exTgts, t.nboxes = t.moments.d0) ∧
    forwardChecked exK exM exOut exTgts = .ok [([0, 1], [1, 0])] ∧
    ([([0, 1], [1, 0])].getD 0 ([], [])).1.Nodup :=
  ⟨by decide, by decide, by decide,
    ((assignment_index_ranges_spec exK exM exOut exTgts (by decide) (by decide) _
      (by decide)) 0 (by decide)).1⟩

/-- C6 (amended): on every successful call over a well-shaped input, the
matched prediction-index sequence of each example is strictly increasing as
emitted, and the matched target-index sequence is pairwise distinct — but
not in general increasing (see the counterexample). -/
theorem solver_emit_row_sorted_amended (K : NumKernel) (M : HungarianMatcher) (o : Outputs)
    (ts : List Target) (h : ValidInput o ts) (res : List (List ℕ × List ℕ))
    (hres : forwardChecked K M o ts = .ok res) :
    ∀ i < ts.length,
      List.Pairwise (· < ·) (res.getD i ([], [])).1 ∧ (res.getD i ([], [])).2.Nodup := by
  intro i hi
  obtain ⟨cand, hcand, h1, h2⟩ := forward_ok_cand h hres hi
  obtain ⟨-, hpw, -, hnd, -⟩ := lsaCandidates_spec hcand
  constructor
  · rw [h1]
    exact List.pairwise_map.2 hpw
  · rw [h2]
    exact hnd

unseal Rat.add Rat.mul Rat.sub Rat.inv in
/-- Witness for the amended C6 at a concrete input. -/
theorem solver_emit_row_sorted_witness :
    ValidInput exOut exTgts ∧
    forwardChecked exK exM exOut exTgts = .ok [([0, 1], [1, 0])] ∧
    List.Pairwise (· < ·) ([([0, 1], [1, 0])].getD 0 ([], [])).1 :=
  ⟨by decide, by decide,
    ((solver_emit_row_sorted_amended exK exM exOut exTgts (by decide) _ (by decide)) 0
      (by decide)).1⟩

unseal Rat.add Rat.mul Rat.sub Rat.inv in
/-- Counterexample to C6 as stated: on this input the matcher returns the
anti-diagonal optimal assignment, whose matched target-index sequence
`[1, 0]` is not strictly increasing. -/
theorem solver_emit_not_sorted_counterexample :
    forwardChecked exK exM exOut exTgts = .ok [([0, 1], [1, 0])] ∧
    ¬ List.Pairwise (fun a b : ℕ => a < b) [1, 0] :=
  ⟨by decide, by decide⟩

/-- C7: on a well-shaped input whose values are all finite, with finite
non-negative weights, every in-range entry of every per-example cost block
is finite, and the whole call succeeds — the solver is never invoked on a
block containing non-finite values. -/
theorem finite_cost_blocks_spec (K : NumKernel) (M : HungarianMatcher) (o : Outputs)
    (ts : List Target) (h : ValidInput o ts) (hf : FiniteInputs o ts)
    (_hw : 0 ≤ M.cost_class ∧ 0 ≤ M.cost_moments ∧ 0 ≤ M.cost_kl) :
    (∀ i < ts.length, ∀ q < o.pred_logits.d1, ∀ t2 < (sizesOf ts).getD i 0,
      (blockEntry K M o ts i q t2).isFinite = true) ∧
    isOkE (forwardChecked K M o ts) = true := by
  refine ⟨fun i hi q hq t2 ht2 => blockEntry_finite K M h hf hi hq ht2, ?_⟩
  obtain ⟨res, hres⟩ := forward_ok_of_valid_finite K M h hf
  exact isOkE_of_ok hres

unseal Rat.add Rat.mul Rat.sub Rat.inv in
/-- Witness for C7 at a concrete input. -/
theorem finite_cost_blocks_witness :
    ValidInput exOut exTgts ∧ FiniteInputs exOut exTgts ∧
    ((0:ℚ) ≤ 1 ∧ (0:ℚ) ≤ 1 ∧ (0:ℚ) ≤ 1) ∧
    (blockEntry exK exM exOut exTgts 0 0 0).isFinite = true :=
  ⟨by decide, by decide, by decide,
    (finite_cost_blocks_spec exK exM exOut exTgts (by decide) (by decide)
      (by decide)).1 0 (by decide) 0 (by decide) 0 (by decide)⟩

/-- C8: constructing a matcher with all three weights zero fails with the
assertion message; any configuration with at least one non-zero weight
constructs successfully; and the weight condition is never re-checked at
call time — a call with the all-zero weight record still succeeds on a
well-shaped finite input. -/
theorem matcher_weight_precondition_spec :
    HungarianMatcher.init 0 0 0 = .error "all costs cant be 0" ∧
    (∀ cc cm ck : ℚ, (cc ≠ 0 ∨ cm ≠ 0 ∨ ck ≠ 0) →
      HungarianMatcher.init cc cm ck = .ok ⟨cc, cm, ck⟩) ∧
    (∀ (K : NumKernel) (o : Outputs) (ts : List Target), ValidInput o ts → FiniteInputs o ts →
      isOkE (forwardChecked K ⟨0, 0, 0⟩ o ts) = true) := by
  refine ⟨?_, ?_, ?_⟩
  · exact if_neg (by push_neg; exact ⟨rfl, rfl, rfl⟩)
  · intro cc cm ck hc
    exact if_pos hc
  · intro K o ts h hf
    obtain ⟨res, hres⟩ := forward_ok_of_valid_finite K ⟨0, 0, 0⟩ h hf
    exact isOkE_of_ok hres

/-- Witness for C8. -/
theorem matcher_weight_precondition_witness :
    ((1:ℚ) ≠ 0 ∨ (0:ℚ) ≠ 0 ∨ (0:ℚ) ≠ 0) ∧
    HungarianMatcher.init 1 0 0 = .ok ⟨1, 0, 0⟩ ∧
    ValidInput exOut exTgts ∧ FiniteInputs exOut exTgts ∧
    isOkE (forwardChecked exK ⟨0, 0, 0⟩ exOut exTgts) = true :=
  ⟨Or.inl one_ne_zero, matcher_weight_precondition_spec.2.1 1 0 0 (Or.inl one_ne_zero),
    by decide, by decide,
    matcher_weight_precondition_spec.2.2 exK exOut exTgts (by decide) (by decide)⟩

theorem not_ok_isOkE {x : Except String (List (List ℕ × List ℕ))}
    (h : ∀ r, x = .ok r → False) : isOkE x = false := by
  cases x with
  | ok r => exact (h r rfl).elim
  | error e => rfl

/-- C9 (amended): the call aborts on an empty targets list, on a targets
list longer than the batch, on a target/prediction moment-width mismatch,
on a too-narrow moment width, and on per-example-consistent targets whose
`"boxes"` length sum differs from the concatenated target axis — but a
non-empty targets list *shorter* than the batch is not detected: the call
silently returns one pair per target entry (see the counterexample). -/
theorem shape_mismatch_aborts_amended (K : NumKernel) (M : HungarianMatcher) (o : Outputs)
    (ts : List Target) :
    (ts.isEmpty = true → isOkE (forwardChecked K M o ts) = false) ∧
    (o.pred_logits.d0 < ts.length → isOkE (forwardChecked K M o ts) = false) ∧
    ((∀ t ∈ ts, t.moments.d1 = 5) → ts.isEmpty = false → o.pred_moments.d2 ≠ 5 →
      isOkE (forwardChecked K M o ts) = false) ∧
    (o.pred_moments.d2 < 5 → isOkE (forwardChecked K M o ts) = false) ∧
    ((∀ t ∈ ts, t.moments.d1 = 5) → (tgtIds ts).length = totalRows ts →
      o.pred_moments.d0 = o.pred_logits.d0 → o.pred_moments.d1 = o.pred_logits.d1 →
      (sizesOf ts).sum ≠ totalRows ts → isOkE (forwardChecked K M o ts) = false) := by
  refine ⟨?_, ?_, ?_, ?_, ?_⟩
  · intro hemp
    refine not_ok_isOkE (fun r hr => ?_)
    exact Bool.noConfusion (hemp.symm.trans (forward_ok_checks hr).1)
  · intro hlt
    refine not_ok_isOkE (fun r hr => ?_)
    have hc := (forward_ok_checks hr).2.2.2.2.2.2.2
    refine listTraverse_no_ok_of_bad (List.mem_range.2 hlt) ?_ hc
    intro y hy
    rw [if_neg (lt_irrefl _)] at hy
    exact Except.noConfusion hy
  · intro hw hne hd2
    refine not_ok_isOkE (fun r hr => ?_)
    have hc := (forward_ok_checks hr).2.2.1
    cases ts with
    | nil => exact Bool.noConfusion hne
    | cons t rest =>
      have : o.pred_moments.d2 = t.moments.d1 := hc
      rw [hw t (List.mem_cons_self t rest)] at this
      exact hd2 this
  · intro hd2
    refine not_ok_isOkE (fun r hr => ?_)
    have hc := (forward_ok_checks hr).2.2.2.1
    have h3 : 3 ≤ o.pred_moments.d2 - 2 := of_decide_eq_true hc
    omega
  · intro hw5 hids hd0 hd1 hsum
    refine not_ok_isOkE (fun r hr => ?_)
    have hck := forward_ok_checks hr
    have hne : ts.isEmpty = false := hck.1
    have hW : (catMomentsP ts).d1 = 5 := by
      cases ts with
      | nil => exact Bool.noConfusion hne
      | cons t rest => exact hw5 t (List.mem_cons_self t rest)
    have hC0 : (combinedC K M o ts).d0 = o.pred_logits.d0 * o.pred_logits.d1 := by
      show bcD (bcD (costMomentsT o ts).d0 (costClassT K o ts).d0) (costKlT K o ts).d0 = _
      have hm : (costMomentsT o ts).d0 = o.pred_logits.d0 * o.pred_logits.d1 := by
        show o.pred_moments.d0 * o.pred_moments.d1 = _
        rw [hd0, hd1]
      have hk : (costKlT K o ts).d0 = o.pred_logits.d0 * o.pred_logits.d1 := by
        show o.pred_moments.d0 * o.pred_moments.d1 = _
        rw [hd0, hd1]
      rw [hm, valid_cc_d0 K o ts, hk, bcD_self, bcD_self]
    have hC1 : (combinedC K M o ts).d1 = totalRows ts := by
      show bcD (bcD (costMomentsT o ts).d1 (costClassT K o ts).d1) (costKlT K o ts).d1 = _
      rw [show (costMomentsT o ts).d1 = totalRows ts from rfl,
        show (costClassT K o ts).d1 = (tgtIds ts).length from rfl, hids,
        show (costKlT K o ts).d1 = totalRows ts from rfl, bcD_self, bcD_self]
    have hview : viewWidth K M o ts = totalRows ts := by
      unfold viewWidth
      rw [hC0, hC1]
      exact Nat.mul_div_cancel_left _ (Nat.pos_of_ne_zero hck.2.2.2.2.2.1)
    rw [hview] at hck
    exact hsum hck.2.2.2.2.2.2.1

unseal Rat.add Rat.mul Rat.sub Rat.inv in
/-- Witness for the amended C9: a targets list longer than the batch makes
the call abort. -/
theorem shape_mismatch_aborts_witness :
    exOut.pred_logits.d0 < exTgtsLong.length ∧
    isOkE (forwardChecked exK exM exOut exTgtsLong) = false :=
  ⟨by decide, (shape_mismatch_aborts_amended exK exM exOut exTgtsLong).2.1 (by decide)⟩

unseal Rat.add Rat.mul Rat.sub Rat.inv in
/-- Counterexample to C9 as stated: a batch of two with a single-element
targets list is a batch-size mismatch, yet the call succeeds and silently
returns a single (truncated) result instead of aborting. -/
theorem shape_mismatch_counterexample :
    exOut2.pred_logits.d0 = 2 ∧ exTgtsShort.length = 1 ∧
    forwardChecked exK exM exOut2 exTgtsShort = .ok [([0], [0])] :=
  ⟨rfl, rfl, by decide⟩

/-- C10: the per-example column sizes of the split come from the `"boxes"`
lengths while the cost columns come from the concatenated labels/moments;
the call succeeds whenever the `"boxes"` lengths merely *sum* to the
concatenated totals (`ValidInput` imposes no per-example agreement), each
example `i` being solved on a block of width `sizes[i]` taken from the
concatenated axis at the cumulative offset — silently misaligned blocks
when an individual example's `"boxes"` length differs from its moment
count. -/
theorem boxes_partition_spec (K : NumKernel) (M : HungarianMatcher) (o : Outputs)
    (ts : List Target) (h : ValidInput o ts) (hf : FiniteInputs o ts) :
    isOkE (forwardChecked K M o ts) = true ∧
    forwardChecked K M o ts =
      listTraverse (fun i => linear_sum_assignment o.pred_logits.d1 ((sizesOf ts).getD i 0)
        (blockEntry K M o ts i)) (List.range ts.length) := by
  constructor
  · obtain ⟨res, hres⟩ := forward_ok_of_valid_finite K M h hf
    exact isOkE_of_ok hres
  · exact forward_eq_of_valid K M h

/-- Witness for C10: targets with `"boxes"` lengths `[2, 0]` against moment
counts `[1, 1]` (equal totals) are accepted, not rejected. -/
theorem boxes_partition_witness :
    ValidInput exOut2 exTgtsMis ∧ FiniteInputs exOut2 exTgtsMis ∧
    (exTgtsMis.getD 0 dTgt).nboxes = 2 ∧ (exTgtsMis.getD 0 dTgt).moments.d0 = 1 ∧
    isOkE (forwardChecked exK exM exOut2 exTgtsMis) = true :=
  ⟨by decide, by decide, rfl, rfl,
    (boxes_partition_spec exK exM exOut2 exTgtsMis (by decide) (by decide)).1⟩
